import Mathlib

/-!
Shallow embedding of the pi-extension webview transcript reducer
(`src/webview/App.tsx`, the `reducer` function and `flattenSessionTree`)
and of `PiSession.getHistory` (`src/pi.ts`).

Conventions of the embedding:
* JavaScript values that the code treats opaquely (tool arguments, tool
  results, structured details) are modelled by the inductive `JsVal`;
  message `content` is itself such a value (a string, an array of content
  blocks, or anything else).
* Optional / possibly-`undefined` fields are `Option`s; JS truthiness of a
  string is "`some s` with `s` nonempty", of a number "`some n` with `n ≠ 0`".
* The module-global `msgCounter` used by `nextId()` is threaded through the
  state explicitly as the field `counter` of `AppState`.
-/

namespace PiExt

/-- An opaque JavaScript value (tool arguments, structured details, ...):
the embedded code passes these through without ever inspecting them, so they
are modelled as an abstract token carrying an optional string tag. -/
inductive JsArg where
  | str (s : String)
  | other
  deriving DecidableEq

/-- A content block as found in persisted assistant/user message content.
The source reads the fields duck-typed (`block.id ?? block.toolCallId`,
`block.name ?? block.toolName`, `block.arguments ?? block.args`), so the
tool-call constructor carries both spellings as options. -/
inductive Block where
  | text (text : Option String)
  | thinking (thinking : Option String)
  | toolCall (id toolCallId name toolName : Option String)
      (arguments args : Option JsArg)
  | other
  deriving DecidableEq

/-- A JavaScript value as the code discriminates message `content` and tool
results: a string (`typeof content === "string"`), an array of content
blocks (`Array.isArray(content)`), or any other value (object, number,
null, undefined, ...), which the embedded code never inspects further. -/
inductive JsVal where
  | str (s : String)
  | arr (blocks : List Block)
  | other
  deriving DecidableEq

/-- `SerializedContent` from `src/webview/types.ts`: the content blocks sent
with a `message_end` event (fields `text?`, `thinking?`, `toolName?`,
`toolCallId?`, `args?`). -/
inductive SerializedContent where
  | text (text : Option String)
  | thinking (thinking : Option String)
  | toolCall (toolName toolCallId : Option String) (args : Option JsArg)
  deriving DecidableEq

/-- `ToolCallState` from `src/webview/App.tsx` (lines 30-37). -/
structure ToolCallState where
  toolCallId : String
  toolName : String
  args : Option JsArg
  result : Option JsVal := none
  isError : Option Bool := none
  done : Bool
  deriving DecidableEq

/-- `ChatMessage` from `src/webview/App.tsx` (lines 21-28); `role` is one of
"user", "assistant", "system". -/
structure ChatMessage where
  id : String
  role : String
  text : String
  thinking : String
  toolCalls : List ToolCallState
  done : Bool
  deriving DecidableEq

/-- One element of `HistoryMessage.toolCalls` from `src/webview/types.ts`. -/
structure HistoryToolCall where
  toolCallId : String
  toolName : String
  args : Option JsArg
  result : Option JsVal := none
  details : Option JsArg := none
  isError : Option Bool := none
  deriving DecidableEq

/-- `HistoryMessage` from `src/webview/types.ts`. -/
structure HistoryMessage where
  role : String
  text : String
  thinking : String
  toolCalls : List HistoryToolCall
  deriving DecidableEq

/-- The slice of `AppState` (`src/webview/App.tsx` lines 39-47) that the
transcript reducer reads and writes: the message list, the in-progress
assistant pointer, and the `isStreaming` flag of the session-state mirror.
`counter` models the module-global `msgCounter` consumed by `nextId()`.
(The `tree` dialog state and the remaining `sessionState` fields are only
copied through by the message-handling cases and are omitted.) -/
structure AppState where
  messages : List ChatMessage
  currentAssistantId : Option String
  isStreaming : Bool
  counter : Nat
  deriving DecidableEq

/-- `AgentSessionEventData` from `src/webview/types.ts`. -/
inductive Event where
  | user_message (text : String)
  | agent_start
  | agent_end
  | turn_start
  | turn_end
  | message_start (role : String)
  | message_update (role : String) (deltaType : Option String) (delta : Option String)
  | message_end (role : String) (content : Option (List SerializedContent))
  | tool_execution_start (toolCallId toolName : String) (args : Option JsArg)
  | tool_execution_update (toolCallId toolName : String) (partialRes : Option JsArg)
  | tool_execution_end (toolCallId toolName : String) (result : Option JsVal) (isError : Option Bool)
  | auto_compaction_start
  | auto_compaction_end (summary : Option String) (tokensBefore : Option Nat)
  | auto_retry_start (attempt maxAttempts : Nat)
  | auto_retry_end (success : Bool)
  deriving DecidableEq

/-- The `Action` union of `src/webview/App.tsx` (lines 49-54), restricted to
the actions that touch the reducer fields modelled in `AppState` (the
`state` and `tree_state` actions only replace the session-state mirror and
the tree-dialog data and leave all modelled fields untouched). -/
inductive Action where
  | event (e : Event)
  | clear
  | history (messages : List HistoryMessage)
  deriving DecidableEq

/-- `nextId()` (`src/webview/App.tsx` lines 56-59): increments the counter
and returns `msg-<counter>`. -/
def nextId (c : Nat) : String × Nat :=
  (s!"msg-{c + 1}", c + 1)

/-- Replace the element at index `i` by `f` of it (models `arr[i] = f(arr[i])`
after a `findIndex`); out-of-range indices leave the list unchanged. -/
def updateAt {α : Type} : List α → Nat → (α → α) → List α
  | [], _, _ => []
  | x :: xs, 0, f => f x :: xs
  | x :: xs, n + 1, f => x :: updateAt xs n f

/-- The backward scan `for (let i = l.length - 1; i >= 0; i--) if
(p(l[i])) { l[i] = f(l[i]); break; }`, generic over the element type: apply
`f` to the last element satisfying `p`, if any. Used by the
`tool_execution_start` / `tool_execution_end` reducer cases and by the
`toolResult` fold of `getHistory`. -/
def updateLast {α : Type} (p : α → Bool) (f : α → α) : List α → List α
  | [] => []
  | x :: xs =>
    if xs.any p then x :: updateLast p f xs
    else if p x then f x :: xs
    else x :: xs

/-- Apply `f` to the most recent assistant message, if any (lines 180-199 /
204-221). -/
def updateLastAssistant (f : ChatMessage → ChatMessage)
    (msgs : List ChatMessage) : List ChatMessage :=
  updateLast (fun m => m.role == "assistant") f msgs

/-- `pat.isPrefixOf l`-based substring test: models JS `s.includes(pat)`. -/
def hasSubstrAux (pat : List Char) : List Char → Bool
  | [] => pat.isEmpty
  | c :: rest => pat.isPrefixOf (c :: rest) || hasSubstrAux pat rest

/-- JS `s.includes(pat)`. -/
def strIncludes (s pat : String) : Bool :=
  hasSubstrAux pat.toList s.toList

/-- JS truthiness of a possibly-undefined string. -/
def strTruthy : Option String → Bool
  | some s => s != ""
  | none => false

/-- The `history` case (lines 69-79): map each `HistoryMessage` to a done
`ChatMessage` with a fresh id, threading the id counter. -/
def historyToChat (c : Nat) : List HistoryMessage → List ChatMessage × Nat
  | [] => ([], c)
  | hm :: rest =>
    let (id, c1) := nextId c
    let m : ChatMessage :=
      { id := id, role := hm.role, text := hm.text, thinking := hm.thinking,
        toolCalls := hm.toolCalls.map (fun tc =>
          { toolCallId := tc.toolCallId, toolName := tc.toolName, args := tc.args,
            result := tc.result, isError := tc.isError, done := true }),
        done := true }
    let (ms, c2) := historyToChat c1 rest
    (m :: ms, c2)

/-- The body of the `message_update` case applied to the in-progress message
(lines 135-141): append the delta to the text or thinking accumulator
depending on `deltaType`, when the delta is truthy. -/
def applyDelta (deltaType delta : Option String) (m : ChatMessage) : ChatMessage :=
  if deltaType == some "text_delta" && strTruthy delta then
    { m with text := m.text ++ delta.getD "" }
  else if deltaType == some "thinking_delta" && strTruthy delta then
    { m with thinking := m.thinking ++ delta.getD "" }
  else m

/-- The accumulation loop of the `message_end` case (lines 152-168):
reconstruct `text` from the content blocks. -/
def endText (blocks : List SerializedContent) : String :=
  blocks.foldl (fun acc b =>
    match b with
    | .text t => if strTruthy t then acc ++ t.getD "" else acc
    | _ => acc) ""

/-- Reconstruct `thinking` from the content blocks (lines 158-159). -/
def endThinking (blocks : List SerializedContent) : String :=
  blocks.foldl (fun acc b =>
    match b with
    | .thinking t => if strTruthy t then acc ++ t.getD "" else acc
    | _ => acc) ""

/-- Reconstruct the tool-call list from the content blocks (lines 160-167). -/
def endToolCalls (blocks : List SerializedContent) : List ToolCallState :=
  blocks.foldl (fun acc b =>
    match b with
    | .toolCall tn tc args =>
      acc ++ [{ toolCallId := tc.getD "", toolName := tn.getD "", args := args,
                done := false }]
    | _ => acc) []

/-- The body of the `message_end` case applied to the in-progress message
(lines 151-172): mark done; if a final content array was supplied, overwrite
`text` / `thinking` / `toolCalls` — each only when the reconstructed value is
nonempty (`if (text) ...`, `if (thinking) ...`, `if (toolCalls.length > 0)`). -/
def finalizeMessage (content : Option (List SerializedContent)) (m0 : ChatMessage) : ChatMessage :=
  let msg := { m0 with done := true }
  match content with
  | none => msg
  | some blocks =>
    let text := endText blocks
    let thinking := endThinking blocks
    let toolCalls := endToolCalls blocks
    let msg := if text != "" then { msg with text := text } else msg
    let msg := if thinking != "" then { msg with thinking := thinking } else msg
    if toolCalls.length > 0 then { msg with toolCalls := toolCalls } else msg

/-- The `reducer` of `src/webview/App.tsx` (lines 61-268), restricted to the
modelled state slice. Each case mirrors the corresponding `switch` branch;
branches that return `{ ...state, messages: msgs }` with `msgs` an unchanged
copy are modelled as returning the state unchanged. -/
def reducer (state : AppState) (action : Action) : AppState :=
  match action with
  | .clear => { state with messages := [], currentAssistantId := none }
  | .history hms =>
    let (msgs, c) := historyToChat state.counter hms
    { state with messages := msgs, currentAssistantId := none, counter := c }
  | .event e =>
    match e with
    | .user_message text =>
      let (id, c) := nextId state.counter
      { state with
          messages := state.messages ++
            [{ id := id, role := "user", text := text, thinking := "",
               toolCalls := [], done := true }],
          counter := c }
    | .agent_start => { state with isStreaming := true }
    | .agent_end => { state with isStreaming := false, currentAssistantId := none }
    | .message_start role =>
      if role == "assistant" then
        let (id, c) := nextId state.counter
        { state with
            messages := state.messages ++
              [{ id := id, role := "assistant", text := "", thinking := "",
                 toolCalls := [], done := false }],
            currentAssistantId := some id,
            counter := c }
      else state
    | .message_update role deltaType delta =>
      match state.currentAssistantId with
      | some cid =>
        if role == "assistant" then
          match state.messages.findIdx? (fun m => m.id == cid) with
          | some idx =>
            { state with
                messages := updateAt state.messages idx (applyDelta deltaType delta) }
          | none => state
        else state
      | none => state
    | .message_end role content =>
      match state.currentAssistantId with
      | some cid =>
        if role == "assistant" then
          match state.messages.findIdx? (fun m => m.id == cid) with
          | some idx =>
            { state with
                messages := updateAt state.messages idx (finalizeMessage content) }
          | none => state
        else state
      | none => state
    | .tool_execution_start toolCallId toolName args =>
      { state with
          messages := updateLastAssistant (fun msg =>
            match msg.toolCalls.findIdx? (fun tc => tc.toolCallId == toolCallId) with
            | some _ => msg
            | none =>
              { msg with toolCalls := msg.toolCalls ++
                  [{ toolCallId := toolCallId, toolName := toolName, args := args,
                     done := false }] }) state.messages }
    | .tool_execution_update _ _ _ => state
    | .tool_execution_end toolCallId _ result isError =>
      { state with
          messages := updateLastAssistant (fun msg =>
            match msg.toolCalls.findIdx? (fun tc => tc.toolCallId == toolCallId) with
            | some j =>
              { msg with toolCalls := updateAt msg.toolCalls j (fun tc =>
                  { tc with result := result, isError := isError, done := true }) }
            | none => msg) state.messages }
    | .auto_compaction_start =>
      let (id, c) := nextId state.counter
      { state with
          messages := state.messages ++
            [{ id := id, role := "system", text := "Compacting context…",
               thinking := "", toolCalls := [], done := false }],
          counter := c }
    | .auto_compaction_end summary tokensBefore =>
      match state.messages.getLast? with
      | some last =>
        if last.role == "system" && strIncludes last.text "Compacting" then
          let label :=
            match tokensBefore with
            | some n =>
              if n != 0 then s!"Context compacted ({n} tokens → summary)"
              else "Context compacted."
            | none => "Context compacted."
          { state with
              messages := state.messages.dropLast ++
                [{ last with text := label, thinking := summary.getD "", done := true }] }
        else state
      | none => state
    | .auto_retry_start attempt maxAttempts =>
      let (id, c) := nextId state.counter
      { state with
          messages := state.messages ++
            [{ id := id, role := "system",
               text := s!"Retrying ({attempt}/{maxAttempts})…",
               thinking := "", toolCalls := [], done := false }],
          counter := c }
    | .turn_start => state
    | .turn_end => state
    | .auto_retry_end _ => state

/-! ## Session entries (`SessionEntry` of the agent library, as the code reads them)

`PiSession.getHistory` (`src/pi.ts` lines 111-187) and `flattenSessionTree`
(`src/webview/App.tsx` lines 282-476) both consume persisted session entries
duck-typed; the fields below are exactly the ones those functions read. -/

/-- The `message` payload of a `message` entry: `role`, `content`, and for
`toolResult` messages the originating `toolCallId`, the error flag and the
structured `details`. -/
structure MsgPayload where
  role : String
  content : JsVal
  toolCallId : Option String := none
  isError : Option Bool := none
  details : Option JsArg := none
  deriving DecidableEq

/-- A session entry, with the fields the embedded functions read. `type` is
the discriminator ("message", "compaction", "branch_summary",
"model_change", "thinking_level_change", "label", "custom",
"session_info", ...). -/
structure Entry where
  id : String
  parentId : Option String := none
  type : String
  message : Option MsgPayload := none
  summary : Option String := none
  tokensBefore : Option Nat := none
  label : Option String := none
  deriving DecidableEq

/-! ## `PiSession.getHistory` (`src/pi.ts` lines 111-187) -/

/-- User text extraction (lines 124-132): a string content verbatim, an
array content concatenates the `text` fields of its text blocks
(`join` turns an undefined `text` into the empty string), anything else
gives the empty string. -/
def userText : JsVal → String
  | .str s => s
  | .arr bs =>
    bs.foldl (fun acc b =>
      match b with
      | .text t => acc ++ t.getD ""
      | _ => acc) ""
  | .other => ""

/-- Assistant content extraction (lines 135-150): accumulate text, thinking
and tool calls from the blocks of an array content (`block.id ?? ""`,
`block.name ?? ""`, `args: block.arguments`); a non-array content yields
nothing. -/
def assistantParts (content : JsVal) : String × String × List HistoryToolCall :=
  match content with
  | .arr bs =>
    bs.foldl (fun (acc : String × String × List HistoryToolCall) b =>
      match b with
      | .text t => (acc.1 ++ t.getD "", acc.2.1, acc.2.2)
      | .thinking t => (acc.1, acc.2.1 ++ t.getD "", acc.2.2)
      | .toolCall id _ name _ arguments _ =>
        (acc.1, acc.2.1,
          acc.2.2 ++ [{ toolCallId := id.getD "", toolName := name.getD "",
                        args := arguments }])
      | .other => acc) ("", "", [])
  | _ => ("", "", [])

/-- Folding one `toolResult` message into an assistant history message
(lines 156-166): set `result` / `isError` / `details` on the first tool-call
slot whose id matches; with no match the message is returned unchanged (the
source logs a diagnostic and drops the result). -/
def applyToolResult (msg : MsgPayload) (m : HistoryMessage) : HistoryMessage :=
  match m.toolCalls.findIdx? (fun t => some t.toolCallId == msg.toolCallId) with
  | some idx =>
    { m with toolCalls := updateAt m.toolCalls idx (fun t =>
        { t with result := some msg.content, isError := msg.isError,
                 details := msg.details }) }
  | none => m

/-- JS `Number.prototype.toLocaleString()` under the default en-US locale:
decimal digits grouped in threes by commas. (Operates on the reversed digit
list.) -/
def groupRev : List Char → List Char
  | a :: b :: c :: d :: rest => a :: b :: c :: ',' :: groupRev (d :: rest)
  | l => l

/-- `n.toLocaleString()` for a natural number (en-US default locale). -/
def toLocaleStringNat (n : Nat) : String :=
  String.mk (groupRev (toString n).toList.reverse).reverse

/-- `e.tokensBefore?.toLocaleString() ?? "?"` (line 173). -/
def fmtTokensBefore : Option Nat → String
  | some n => toLocaleStringNat n
  | none => "?"

/-- One iteration of the `getHistory` entry loop (lines 118-185). -/
def historyStep (result : List HistoryMessage) (e : Entry) : List HistoryMessage :=
  if e.type == "message" then
    match e.message with
    | none => result
    | some msg =>
      if msg.role == "user" then
        result ++ [{ role := "user", text := userText msg.content, thinking := "",
                     toolCalls := [] }]
      else if msg.role == "assistant" then
        let parts := assistantParts msg.content
        result ++ [{ role := "assistant", text := parts.1, thinking := parts.2.1,
                     toolCalls := parts.2.2 }]
      else if msg.role == "toolResult" then
        updateLast (fun m => m.role == "assistant") (applyToolResult msg) result
      else result
  else if e.type == "compaction" then
    result ++ [{ role := "system",
                 text := s!"Context compacted ({fmtTokensBefore e.tokensBefore} tokens → summary)",
                 thinking := e.summary.getD "", toolCalls := [] }]
  else if e.type == "branch_summary" then
    result ++ [{ role := "system", text := "Branch summary",
                 thinking := e.summary.getD "", toolCalls := [] }]
  else result

/-- `PiSession.getHistory` (lines 111-187): fold the entry list into history
messages. -/
def getHistory (entries : List Entry) : List HistoryMessage :=
  entries.foldl historyStep []

/-! ## `flattenSessionTree` (`src/webview/App.tsx` lines 282-476)

The session tree is a forest of nodes, each carrying an entry, an optional
label and a child list. The node/forest types are a mutual inductive so
that every traversal below is structural (and hence kernel-computable).

The embedding projects each produced `FlatTreeNode` to the fields the
row-selection logic determines: `id`, `parentId`, `entryType`, `role`,
`isOnActiveBranch`, `isLeaf`. The purely visual fields (`preview`, `label`,
`timestamp`, `indent`, `showConnector`, `isLast`, `gutters`,
`isVirtualRootChild`, `toolName`, `toolArgs`) are omitted:
`recalculateVisualStructure` (lines 478-576) mutates only those visual
fields of the already-filtered rows — it never changes a row's identity,
membership, order, or active/leaf flags — so on this projection it is the
identity and is not modelled. -/

/-- `FlatTreeNode` from `src/webview/types.ts`, projected to the fields the
row-selection logic determines (see the section comment above for the
omitted visual fields). -/
structure FlatTreeNode where
  id : String
  parentId : Option String
  entryType : String
  role : Option String
  isOnActiveBranch : Bool
  isLeaf : Bool
  deriving DecidableEq

mutual
/-- A node of `SessionState["tree"]` as the flattener reads it. -/
inductive TreeNode where
  | mk (entry : Entry) (label : Option String) (children : Forest)

/-- A list of tree nodes (mutual with `TreeNode` so traversals are
structural). -/
inductive Forest where
  | nil
  | cons (head : TreeNode) (tail : Forest)
end

def TreeNode.entry : TreeNode → Entry
  | .mk e _ _ => e

def TreeNode.children : TreeNode → Forest
  | .mk _ _ cs => cs

mutual
/-- The "contains active leaf" flag (lines 291-310): a node contains the
active leaf iff `leafId !== null` and the node's entry id equals it, or some
child does. -/
def containsActive (leafId : Option String) : TreeNode → Bool
  | .mk e _ cs =>
    (match leafId with
     | some l => e.id == l
     | none => false) || containsActiveF leafId cs

def containsActiveF (leafId : Option String) : Forest → Bool
  | .nil => false
  | .cons n rest => containsActive leafId n || containsActiveF leafId rest
end

mutual
/-- Pre-order traversal of the forest: the `allNodes` list of lines 292-300
(explicit stack pushing children in reverse = left-to-right pre-order). -/
def preOrderN : TreeNode → List TreeNode
  | .mk e l cs => .mk e l cs :: preOrderF cs

def preOrderF : Forest → List TreeNode
  | .nil => []
  | .cons n rest => preOrderN n ++ preOrderF rest
end

/-- The row produced for a node (lines 380-397), projected to the modelled
fields. `role` is `entry.message?.role` for message entries (line 351);
`isLeaf` is `leafId ? id === leafId : false` (line 387); the active flag is
patched in later (line 457). -/
def mkRow (leafId : Option String) (e : Entry) : FlatTreeNode :=
  { id := e.id,
    parentId := e.parentId,
    entryType := e.type,
    role := if e.type == "message" then e.message.map (fun m => m.role) else none,
    isOnActiveBranch := false,
    isLeaf := match leafId with
              | some l => if l != "" then e.id == l else false
              | none => false }

mutual
/-- The main DFS (lines 326-446) producing `flatAll`: a node's row followed
by the rows of its children, the children whose subtree contains the active
leaf first, the rest after, each group in original order (lines 405-416).
(The source builds `orderedChildren = prioritized ++ rest` and pushes it on
the stack; visiting that concatenation left to right is exactly one pass
over the active children followed by one pass over the inactive ones.) -/
def dfsN (leafId : Option String) : TreeNode → List FlatTreeNode
  | .mk e _ cs =>
    mkRow leafId e :: (dfsGroup leafId true cs ++ dfsGroup leafId false cs)

/-- Visit exactly the children whose `containsActive` flag equals `b`, in
order. -/
def dfsGroup (leafId : Option String) (b : Bool) : Forest → List FlatTreeNode
  | .nil => []
  | .cons n rest =>
    (if containsActive leafId n == b then dfsN leafId n else []) ++
      dfsGroup leafId b rest
end

/-- The roots, like the children, are visited active-subtree first (lines
312-315: a stable sort by `Number(containsActive(b)) - Number(containsActive(a))`
moves the roots containing the active leaf to the front and otherwise keeps
the original order — i.e. the same partition as for children). -/
def dfsRoots (leafId : Option String) (tree : Forest) : List FlatTreeNode :=
  dfsGroup leafId true tree ++ dfsGroup leafId false tree

/-- `nodeById.get` (line 289, populated at line 400): a `Map` keyed by id in
which a later insertion overwrites an earlier one, so lookup returns the
last row with the given id. -/
def lookupLast (rows : List FlatTreeNode) (id : String) : Option FlatTreeNode :=
  rows.reverse.find? (fun r => r.id == id)

/-- The active-branch walk (lines 448-455): from the leaf id, repeatedly
add the current id and move to `nodeById.get(current)?.parentId ?? null`,
stopping on a falsy id. The source's `while (current)` loop is modelled with
fuel; for a forest with acyclic parent links (the data-model invariant) a
fuel of one more than the row count is enough to reproduce the loop exactly,
while on a cyclic parent chain the source itself would not terminate. -/
def activeChainGo (rows : List FlatTreeNode) : Nat → String → List String
  | 0, _ => []
  | fuel + 1, cur =>
    if cur == "" then []
    else
      cur :: (match lookupLast rows cur with
              | some r =>
                match r.parentId with
                | some p => activeChainGo rows fuel p
                | none => []
              | none => [])

/-- The `activeIds` set (lines 448-455), as the list of ids visited by the
walk; the guard is `leafId && nodeById.has(leafId)`. -/
def activeIds (rows : List FlatTreeNode) (leafId : Option String) : List String :=
  match leafId with
  | some l =>
    if l != "" && rows.any (fun r => r.id == l) then
      activeChainGo rows (rows.length + 1) l
    else []
  | none => []

/-- `EXCLUDED_ENTRY_TYPES` (lines 274-280). -/
def EXCLUDED_ENTRY_TYPES : List String :=
  ["thinking_level_change", "model_change", "custom", "label", "session_info"]

/-- `hasTextContent` (lines 642-653): a string content with nonempty trim,
or an array content with a text block whose `text` is truthy and has
nonempty trim. -/
def hasTextContent : JsVal → Bool
  | .str s => decide (0 < s.trim.length)
  | .arr bs =>
    bs.any (fun b =>
      match b with
      | .text t => strTruthy t && decide (0 < (t.getD "").trim.length)
      | _ => false)
  | .other => false

/-- `entry.message?.content` — the content of a message entry, `undefined`
(modelled `.other`) when the entry has no message. -/
def entryContent (e : Entry) : JsVal :=
  match e.message with
  | some m => m.content
  | none => JsVal.other

/-- The row filter (lines 460-471): drop excluded entry types; drop
assistant-message rows other than the leaf whose source content has no text
(looked up by id in the pre-order `allNodes` list, line 464). -/
def keepRow (allNodes : List TreeNode) (leafId : Option String) (r : FlatTreeNode) : Bool :=
  if EXCLUDED_ENTRY_TYPES.contains r.entryType then false
  else if r.role == some "assistant" &&
          (match leafId with
           | some l => r.id != l
           | none => true) then
    match allNodes.find? (fun n => n.entry.id == r.id) with
    | some srcNode =>
      if !hasTextContent (entryContent srcNode.entry) then false else true
    | none => true
  else true

/-- `flatAll` with the active flags patched in (lines 344-458): the DFS rows,
each row's `isOnActiveBranch` set to membership in the active-id walk. -/
def flattenAllMarked (tree : Forest) (leafId : Option String) : List FlatTreeNode :=
  let flatAll := dfsRoots leafId tree
  let act := activeIds flatAll leafId
  flatAll.map (fun r => { r with isOnActiveBranch := act.contains r.id })

/-- `flattenSessionTree` (lines 282-476), on the modelled row projection:
empty forest gives no rows; otherwise build the marked rows, filter them,
and return the result (an empty filtered list returns early; the subsequent
`recalculateVisualStructure` only rewrites the omitted visual fields). -/
def flattenSessionTree (tree : Forest) (leafId : Option String) : List FlatTreeNode :=
  match tree with
  | .nil => []
  | _ =>
    let marked := flattenAllMarked tree leafId
    let allNodes := preOrderF tree
    let filtered := marked.filter (keepRow allNodes leafId)
    if filtered.isEmpty then [] else filtered

/-! ## Specification-side definitions for the refinement claims

These follow the spec's words, not the code, and are only used on the
specification side of theorems that compare the two. -/

mutual
/-- Spec side: the path of entry ids from the top of this node down to the
node with id `l`, if `l` occurs in the subtree (first occurrence in
pre-order, as ids are unique in a well-formed forest). -/
def nodePath (l : String) : TreeNode → Option (List String)
  | .mk e _ cs =>
    if e.id = l then some [e.id]
    else
      match forestPath l cs with
      | some p => some (e.id :: p)
      | none => none

/-- Spec side: the path to `l` through the first subtree of the forest that
contains it. -/
def forestPath (l : String) : Forest → Option (List String)
  | .nil => none
  | .cons n rest =>
    match nodePath l n with
    | some p => some p
    | none => forestPath l rest
end

/-- Spec side: "the ancestors (inclusive) of `leafId` in the original
(unfiltered) forest" — the ids on the root-to-leaf path, empty when
`leafId` is null or absent. -/
def specAncestors (tree : Forest) (leafId : Option String) : List String :=
  match leafId with
  | some l => (forestPath l tree).getD []
  | none => []

mutual
/-- Structural well-formedness of the stored parent links: a node's entry
records exactly its structural parent (`none` for a root). -/
def nodeWF (parent : Option String) : TreeNode → Bool
  | .mk e _ cs => e.parentId == parent && forestWF (some e.id) cs

def forestWF (parent : Option String) : Forest → Bool
  | .nil => true
  | .cons n rest => nodeWF parent n && forestWF parent rest
end

/-- The data-model invariant of §3 of the spec for a session forest: parent
links match the structure, entry ids are unique, and ids are nonempty
strings. -/
def WFForest (tree : Forest) : Prop :=
  forestWF none tree = true ∧
  ((preOrderF tree).map (fun n => n.entry.id)).Nodup ∧
  ∀ n ∈ preOrderF tree, n.entry.id ≠ ""

instance : DecidablePred WFForest := fun tree => by
  unfold WFForest
  infer_instance

/-! ## General lemmas about the list helpers -/

theorem updateLast_of_forall_not {α : Type} (p : α → Bool) (f : α → α) (l : List α)
    (h : ∀ x ∈ l, p x = false) : updateLast p f l = l := by
  induction l with
  | nil => rfl
  | cons x xs ih =>
    have hx := h x (List.mem_cons_self x xs)
    have hxs : xs.any p = false := by
      simp only [List.any_eq_false, Bool.not_eq_true]
      intro a ha
      simp [h a (List.mem_cons_of_mem x ha)]
    simp [updateLast, hxs, hx, ih (fun a ha => h a (List.mem_cons_of_mem x ha))]

theorem map_updateLast {α β : Type} (g : α → β) (p : α → Bool) (f : α → α) (l : List α)
    (h : ∀ x, g (f x) = g x) : (updateLast p f l).map g = l.map g := by
  induction l with
  | nil => rfl
  | cons x xs ih =>
    simp only [updateLast]
    by_cases hxs : xs.any p = true
    · simp [hxs, ih]
    · simp only [Bool.not_eq_true] at hxs
      by_cases hx : p x = true
      · simp [hxs, hx, h]
      · simp only [Bool.not_eq_true] at hx
        simp [hxs, hx]

theorem length_updateLast {α : Type} (p : α → Bool) (f : α → α) (l : List α) :
    (updateLast p f l).length = l.length := by
  have := map_updateLast (fun _ => ()) p f l (fun _ => rfl)
  calc (updateLast p f l).length = ((updateLast p f l).map (fun _ => ())).length := by
        simp
    _ = (l.map (fun _ => ())).length := by rw [this]
    _ = l.length := by simp

theorem map_updateAt {α β : Type} (g : α → β) (l : List α) (i : Nat) (f : α → α)
    (h : ∀ x, g (f x) = g x) : (updateAt l i f).map g = l.map g := by
  induction l generalizing i with
  | nil => rfl
  | cons x xs ih =>
    cases i with
    | zero => simp [updateAt, h]
    | succ n => simp [updateAt, ih]

theorem length_updateAt {α : Type} (l : List α) (i : Nat) (f : α → α) :
    (updateAt l i f).length = l.length := by
  induction l generalizing i with
  | nil => rfl
  | cons x xs ih =>
    cases i with
    | zero => simp [updateAt]
    | succ n => simp [updateAt, ih]

theorem getElem?_updateAt_self {α : Type} (l : List α) (i : Nat) (f : α → α) :
    (updateAt l i f)[i]? = l[i]?.map f := by
  induction l generalizing i with
  | nil => rfl
  | cons x xs ih =>
    cases i with
    | zero => simp [updateAt]
    | succ n => simpa [updateAt] using ih n

theorem findIdx?_updateAt {α : Type} (p : α → Bool) (l : List α) (i : Nat) (f : α → α)
    (h : ∀ x, p (f x) = p x) : (updateAt l i f).findIdx? p = l.findIdx? p := by
  induction l generalizing i with
  | nil => rfl
  | cons x xs ih =>
    cases i with
    | zero => simp [updateAt, List.findIdx?_cons, h]
    | succ n =>
      simp only [updateAt, List.findIdx?_cons]
      by_cases hx : p x = true
      · simp [hx]
      · simp only [Bool.not_eq_true] at hx
        simp [hx, ih]

theorem dropLast_concat_of_getLast? {α : Type} (l : List α) (a : α)
    (h : l.getLast? = some a) : l.dropLast ++ [a] = l := by
  induction l with
  | nil => simp at h
  | cons x xs ih =>
    cases xs with
    | nil => simp_all [List.getLast?]
    | cons y ys =>
      have h' : (y :: ys).getLast? = some a := by
        simpa [List.getLast?_cons_cons] using h
      simpa [List.dropLast_cons_of_ne_nil] using ih h'

/-- The initial reducer state (`initialState` of `src/webview/App.tsx`,
projected to the modelled fields, with the module counter at its initial
value 0). -/
def initState : AppState :=
  { messages := [], currentAssistantId := none, isStreaming := false, counter := 0 }

/-! ## C1 — `tool_execution_start` before any assistant message -/

/-- A state whose message list contains no assistant message (a single done
user message). -/
def userOnlyState : AppState :=
  { messages := [{ id := "msg-1", role := "user", text := "hi", thinking := "",
                   toolCalls := [], done := true }],
    currentAssistantId := none, isStreaming := false, counter := 1 }

/-- C1 counterexample: applying `tool_execution_start(callId "1", toolName
"bash", args {command:"ls"})` to a state with no assistant message leaves the
message list unchanged — no assistant message is synthesized to hold the
tool-call slot; the event is silently dropped, contradicting the claim. -/
theorem C1_counterexample :
    (reducer userOnlyState
        (.event (.tool_execution_start "1" "bash" (some (.str "ls"))))).messages
      = userOnlyState.messages ∧
    ¬ ∃ m ∈ (reducer userOnlyState
        (.event (.tool_execution_start "1" "bash" (some (.str "ls"))))).messages,
        m.role = "assistant" := by
  constructor
  · rfl
  · decide

/-- C1 (amended): for every reducer state whose message list contains no
assistant message, a `tool_execution_start` event is a no-op — the backward
scan finds no assistant message to attach the slot to and the event is
silently dropped (no assistant message is synthesized). -/
theorem C1_drop_without_assistant (s : AppState) (tid tname : String)
    (args : Option JsArg) (h : ∀ m ∈ s.messages, m.role ≠ "assistant") :
    (reducer s (.event (.tool_execution_start tid tname args))) = s := by
  have hall : ∀ m ∈ s.messages, (m.role == "assistant") = false := by
    intro m hm
    simp [h m hm]
  simp [reducer, updateLastAssistant, updateLast_of_forall_not _ _ _ hall]

/-- Witness for `C1_drop_without_assistant` at the concrete scenario of the
claim (call id "1", tool "bash", args {command:"ls"}). -/
theorem C1_drop_without_assistant_witness :
    (∀ m ∈ userOnlyState.messages, m.role ≠ "assistant") ∧
    (reducer userOnlyState
        (.event (.tool_execution_start "1" "bash" (some (.str "ls"))))) = userOnlyState :=
  ⟨by decide,
   C1_drop_without_assistant userOnlyState "1" "bash" (some (.str "ls")) (by decide)⟩

/-! ## C4 — idempotence of the `history` action -/

/-- Erase the generated id of a display message. -/
def stripId (m : ChatMessage) : ChatMessage := { m with id := "" }

/-- The id-independent part of the `history` conversion. -/
def histNoId (hm : HistoryMessage) : ChatMessage :=
  { id := "", role := hm.role, text := hm.text, thinking := hm.thinking,
    toolCalls := hm.toolCalls.map (fun tc =>
      { toolCallId := tc.toolCallId, toolName := tc.toolName, args := tc.args,
        result := tc.result, isError := tc.isError, done := true }),
    done := true }

theorem historyToChat_map_stripId (H : List HistoryMessage) (c : Nat) :
    ((historyToChat c H).1).map stripId = H.map histNoId := by
  induction H generalizing c with
  | nil => rfl
  | cons hm rest ih =>
    simp [historyToChat, nextId, stripId, histNoId, ih]

/-- A one-element history replay. -/
def oneUserHistory : List HistoryMessage :=
  [{ role := "user", text := "a", thinking := "", toolCalls := [] }]

/-- C4 counterexample: replaying the same one-message history twice from the
initial state does not yield an identical Display Message list — the ids are
regenerated from the global counter (`msg-2` instead of `msg-1`), so the two
lists differ. -/
theorem C4_counterexample :
    (reducer (reducer initState (.history oneUserHistory))
        (.history oneUserHistory)).messages
      ≠ (reducer initState (.history oneUserHistory)).messages := by
  decide

/-- C4 (amended): the `history` action is idempotent up to the freshly
generated message ids: replaying the same history-message list twice yields
a Display Message list identical to a single application after erasing the
ids (in particular the same length — no duplication — and identical roles,
texts, thinking, tool calls and done flags). -/
theorem C4_history_idempotent_mod_ids (s : AppState) (H : List HistoryMessage) :
    ((reducer (reducer s (.history H)) (.history H)).messages).map stripId
      = ((reducer s (.history H)).messages).map stripId ∧
    (reducer (reducer s (.history H)) (.history H)).messages.length
      = (reducer s (.history H)).messages.length := by
  constructor
  · simp [reducer, historyToChat_map_stripId]
  · have h1 := historyToChat_map_stripId H s.counter
    have h2 := historyToChat_map_stripId H (historyToChat s.counter H).2
    simp only [reducer]
    calc (historyToChat (historyToChat s.counter H).2 H).1.length
        = ((historyToChat (historyToChat s.counter H).2 H).1.map stripId).length := by
          simp
      _ = ((historyToChat s.counter H).1.map stripId).length := by rw [h1, h2]
      _ = (historyToChat s.counter H).1.length := by simp

/-! ## C7 — auto-compaction start/end -/

/-- The label computed by the `auto_compaction_end` case (lines 240-242);
`event.tokensBefore ?` is JS truthiness, so `0` also gives the short label. -/
def compactionLabel : Option Nat → String
  | some n => if n != 0 then s!"Context compacted ({n} tokens → summary)"
              else "Context compacted."
  | none => "Context compacted."

/-- C7 counterexample: `auto_compaction_start`, then an intervening
`user_message`, then `auto_compaction_end(summary "sum")`. The placeholder
is no longer the last message, so `auto_compaction_end` is a no-op: the
compaction placeholder is never finalized (it stays not-done and no message
carries the summary), contradicting the claim's "for every sequence of
intervening events ... finds the most recent system message". -/
theorem C7_counterexample :
    ((reducer (reducer (reducer initState (.event .auto_compaction_start))
          (.event (.user_message "x")))
          (.event (.auto_compaction_end (some "sum") none))).messages.map
        (fun m => (m.role, m.done)))
      = [("system", false), ("user", true)] ∧
    ∀ m ∈ (reducer (reducer (reducer initState (.event .auto_compaction_start))
          (.event (.user_message "x")))
          (.event (.auto_compaction_end (some "sum") none))).messages,
        m.thinking ≠ "sum" := by
  constructor
  · rfl
  · decide

/-- C7 (amended): `auto_compaction_start` appends a not-done synthetic
system message reading "Compacting context…". `auto_compaction_end`
finalizes the compaction placeholder only when it is still the *last*
message of the list (a system message whose text contains "Compacting"):
it then replaces it by a done message whose text is the human-readable
summary label and whose thinking field is the supplied summary; in every
other situation (any intervening appended message, or an empty list)
`auto_compaction_end` leaves the message list unchanged. -/
theorem C7_compaction_placeholder (s : AppState) (summary : Option String)
    (tokensBefore : Option Nat) :
    ((reducer s (.event .auto_compaction_start)).messages
      = s.messages ++
        [{ id := (nextId s.counter).1, role := "system",
           text := "Compacting context…", thinking := "", toolCalls := [],
           done := false }]) ∧
    ((reducer s (.event (.auto_compaction_end summary tokensBefore))).messages
      = match s.messages.getLast? with
        | some last =>
          if last.role == "system" && strIncludes last.text "Compacting" then
            s.messages.dropLast ++
              [{ last with text := compactionLabel tokensBefore, thinking := summary.getD "", done := true }]
          else s.messages
        | none => s.messages) := by
  constructor
  · simp [reducer, nextId]
  · simp only [reducer, compactionLabel]
    cases s.messages.getLast? with
    | none => rfl
    | some last =>
      by_cases h : (last.role == "system" && strIncludes last.text "Compacting") = true
      · simp only [h, if_true]
      · simp only [Bool.not_eq_true] at h
        simp [h]

/-! ## C8 — resilience of the reducer to unmatched events -/

theorem updateLast_congr_id {α : Type} (p : α → Bool) (f : α → α) (l : List α)
    (h : ∀ x ∈ l, f x = x) : updateLast p f l = l := by
  induction l with
  | nil => rfl
  | cons x xs ih =>
    simp only [updateLast]
    by_cases hxs : xs.any p = true
    · simp [hxs, ih (fun a ha => h a (List.mem_cons_of_mem x ha))]
    · simp only [Bool.not_eq_true] at hxs
      by_cases hx : p x = true
      · simp [hxs, hx, h x (List.mem_cons_self x xs)]
      · simp only [Bool.not_eq_true] at hx
        simp [hxs, hx]

theorem findIdx?_eq_none_of {α : Type} (p : α → Bool) (l : List α)
    (h : ∀ x ∈ l, p x = false) : l.findIdx? p = none := by
  induction l with
  | nil => rfl
  | cons x xs ih =>
    simp [List.findIdx?_cons, h x (List.mem_cons_self x xs),
      ih (fun a ha => h a (List.mem_cons_of_mem x ha))]

/-- A state with one in-progress assistant message with no tool-call slots. -/
def oneAssistantState : AppState :=
  { messages := [{ id := "msg-1", role := "assistant", text := "", thinking := "",
                   toolCalls := [], done := false }],
    currentAssistantId := some "msg-1", isStreaming := true, counter := 1 }

/-- C8 counterexample: a `tool_execution_start` whose call id matches no
existing slot is *not* a no-op when an assistant message exists — it appends
a new tool-call slot to the most recent assistant message, changing the
Display Message list. -/
theorem C8_counterexample :
    (reducer oneAssistantState (.event (.tool_execution_start "1" "bash" none))).messages
      ≠ oneAssistantState.messages := by
  decide

/-- A state with one assistant message holding a single (non-matching)
tool-call slot. -/
def oneSlotState : AppState :=
  { messages := [{ id := "msg-1", role := "assistant", text := "hi", thinking := "",
                   toolCalls := [{ toolCallId := "t1", toolName := "bash", args := none, done := false }], done := false }],
    currentAssistantId := none, isStreaming := false, counter := 1 }

/-- C8 (amended): the reducer is total (it is a Lean function), and the
claimed no-op cases hold except for `tool_execution_start`:
a `tool_execution_end` whose call id matches no slot of any message leaves
the message list unchanged; a `message_update` or `message_end` arriving
with no in-progress assistant message leaves the whole state unchanged;
a `tool_execution_start` is a no-op only when no assistant message exists —
otherwise it appends a fresh slot (see the counterexample). -/
theorem C8_unmatched_events_noop (s : AppState) (cid nm : String)
    (args : Option JsArg) (res : Option JsVal) (isErr : Option Bool)
    (dT d : Option String) (cont : Option (List SerializedContent)) :
    ((∀ m ∈ s.messages, ∀ tc ∈ m.toolCalls, tc.toolCallId ≠ cid) →
      (reducer s (.event (.tool_execution_end cid nm res isErr))).messages
        = s.messages) ∧
    (s.currentAssistantId = none →
      (reducer s (.event (.message_update "assistant" dT d))) = s ∧
      (reducer s (.event (.message_end "assistant" cont))) = s) ∧
    ((∀ m ∈ s.messages, m.role ≠ "assistant") →
      (reducer s (.event (.tool_execution_start cid nm args))) = s) := by
  refine ⟨fun h => ?_, fun h => ⟨?_, ?_⟩, fun h => ?_⟩
  · have hfix : ∀ m ∈ s.messages,
        (fun (msg : ChatMessage) =>
          match msg.toolCalls.findIdx? (fun tc => tc.toolCallId == cid) with
          | some j => { msg with toolCalls := updateAt msg.toolCalls j (fun tc =>
              { tc with result := res, isError := isErr, done := true }) }
          | none => msg) m = m := by
      intro m hm
      have : m.toolCalls.findIdx? (fun tc => tc.toolCallId == cid) = none := by
        apply findIdx?_eq_none_of
        intro tc htc
        simp [h m hm tc htc]
      simp [this]
    simp [reducer, updateLastAssistant, updateLast_congr_id _ _ _ hfix]
  · simp [reducer, h]
  · simp [reducer, h]
  · have hall : ∀ m ∈ s.messages, (m.role == "assistant") = false := by
      intro m hm
      simp [h m hm]
    simp [reducer, updateLastAssistant, updateLast_of_forall_not _ _ _ hall]

/-- Witness for `C8_unmatched_events_noop`, discharging each hypothesis at a
concrete state: an unmatched `tool_execution_end` (call id "zz" against slot
"t1"), `message_update` / `message_end` with no in-progress assistant, and a
`tool_execution_start` with no assistant message present. -/
theorem C8_unmatched_events_noop_witness :
    ((reducer oneSlotState (.event (.tool_execution_end "zz" "bash" none none))).messages
      = oneSlotState.messages) ∧
    ((reducer oneSlotState (.event (.message_update "assistant" (some "text_delta") (some "x")))) = oneSlotState) ∧
    ((reducer oneSlotState (.event (.message_end "assistant" none))) = oneSlotState) ∧
    ((reducer userOnlyState (.event (.tool_execution_start "zz" "bash" none))) = userOnlyState) :=
  ⟨(C8_unmatched_events_noop oneSlotState "zz" "bash" none none none
      (some "text_delta") (some "x") none).1 (by decide),
   ((C8_unmatched_events_noop oneSlotState "zz" "bash" none none none
      (some "text_delta") (some "x") none).2.1 rfl).1,
   ((C8_unmatched_events_noop oneSlotState "zz" "bash" none none none
      (some "text_delta") (some "x") none).2.1 rfl).2,
   (C8_unmatched_events_noop userOnlyState "zz" "bash" none none none
      (some "text_delta") (some "x") none).2.2 (by decide)⟩

/-! ## C2 — `message_end` with a supplied final content array -/

theorem getElem?_updateAt_ne {α : Type} (l : List α) (i j : Nat) (f : α → α)
    (h : j ≠ i) : (updateAt l i f)[j]? = l[j]? := by
  induction l generalizing i j with
  | nil => rfl
  | cons x xs ih =>
    cases i with
    | zero =>
      cases j with
      | zero => exact absurd rfl h
      | succ m => simp [updateAt]
    | succ n =>
      cases j with
      | zero => simp [updateAt]
      | succ m => simpa [updateAt] using ih n m (fun hc => h (by rw [hc]))

/-- A state with an in-progress assistant message that has already
accumulated text "abc" and thinking "th". -/
def inProgressState : AppState :=
  { messages := [{ id := "msg-1", role := "assistant", text := "abc", thinking := "th",
                   toolCalls := [], done := false }],
    currentAssistantId := some "msg-1", isStreaming := true, counter := 1 }

/-- The final content array of the counterexample: a single tool-call block,
so the reconstructed text and thinking are both empty. -/
def toolOnlyContent : List SerializedContent :=
  [.toolCall (some "bash") (some "t1") none]

/-- C2 counterexample: applying `message_end(role assistant)` with a final
content array containing only a tool-call block marks the message done and
overwrites the tool-call list, but the empty reconstructed text and thinking
do *not* overwrite the accumulated "abc" / "th" — contradicting the claim's
"— including when a reconstructed field is empty". -/
theorem C2_counterexample :
    ((reducer inProgressState
        (.event (.message_end "assistant" (some toolOnlyContent)))).messages.map
      (fun m => (m.text, m.thinking, m.done)))
      = [("abc", "th", true)] ∧
    endText toolOnlyContent = "" ∧ endThinking toolOnlyContent = "" := by
  refine ⟨rfl, rfl, rfl⟩

/-- C2 (amended): `message_end(role assistant, content)` with a supplied
final content array marks the in-progress assistant message done and
overwrites its accumulated text, thinking and tool-call list with the values
reconstructed from the content blocks — but each field only when the
reconstructed value is nonempty; an empty reconstructed field leaves the
accumulated value in place. All other messages are untouched. -/
theorem C2_message_end_overwrite (s : AppState) (cid : String) (idx : Nat)
    (old : ChatMessage) (bs : List SerializedContent)
    (h1 : s.currentAssistantId = some cid)
    (h2 : s.messages.findIdx? (fun m => m.id == cid) = some idx)
    (h3 : s.messages[idx]? = some old) :
    (reducer s (.event (.message_end "assistant" (some bs)))).messages[idx]?
      = some { old with done := true, text := if endText bs = "" then old.text else endText bs, thinking := if endThinking bs = "" then old.thinking else endThinking bs, toolCalls := if endToolCalls bs = [] then old.toolCalls else endToolCalls bs } ∧
    ∀ j, j ≠ idx →
      (reducer s (.event (.message_end "assistant" (some bs)))).messages[j]?
        = s.messages[j]? := by
  have hmsgs : (reducer s (.event (.message_end "assistant" (some bs)))).messages
      = updateAt s.messages idx (finalizeMessage (some bs)) := by
    simp [reducer, h1, h2]
  constructor
  · rw [hmsgs, getElem?_updateAt_self, h3]
    simp only [Option.map_some']
    congr 1
    by_cases ht : endText bs = "" <;> by_cases hk : endThinking bs = "" <;>
      by_cases hc : endToolCalls bs = [] <;>
      simp [finalizeMessage, ht, hk, hc, bne_iff_ne, List.length_pos]
  · intro j hj
    rw [hmsgs, getElem?_updateAt_ne _ _ _ _ hj]

/-- Witness for `C2_message_end_overwrite` at the counterexample input. -/
theorem C2_message_end_overwrite_witness :
    (reducer inProgressState
        (.event (.message_end "assistant" (some toolOnlyContent)))).messages[0]?
      = some { id := "msg-1", role := "assistant", text := if endText toolOnlyContent = "" then "abc" else endText toolOnlyContent, thinking := if endThinking toolOnlyContent = "" then "th" else endThinking toolOnlyContent, toolCalls := if endToolCalls toolOnlyContent = [] then ([] : List ToolCallState) else endToolCalls toolOnlyContent, done := true } :=
  (C2_message_end_overwrite inProgressState "msg-1" 0
    { id := "msg-1", role := "assistant", text := "abc", thinking := "th", toolCalls := [], done := false }
    toolOnlyContent rfl (by decide) rfl).1

/-! ## C3 — convergence of the delta path and the final-content path -/

/-- Concatenation of a list of delta strings in arrival order. -/
def joinList : List String → String
  | [] => ""
  | s :: rest => s ++ joinList rest

/-- Apply a list of streaming events in order. -/
def applyEvents (s : AppState) (es : List Event) : AppState :=
  es.foldl (fun s e => reducer s (.event e)) s

/-- The text-delta events for a list of delta strings. -/
def textDeltaEvents (deltas : List String) : List Event :=
  deltas.map (fun d => .message_update "assistant" (some "text_delta") (some d))

theorem updateAt_congr {α : Type} (l : List α) (i : Nat) (f g : α → α)
    (h : ∀ x, f x = g x) : updateAt l i f = updateAt l i g := by
  have : f = g := funext h
  rw [this]

/-- One `message_update(assistant, text_delta, d)` step appends `d` to the
in-progress message's text (also for the trivial empty delta, which the
source skips as falsy — appending the empty string is the same). -/
theorem reducer_text_delta (s : AppState) (cid : String) (idx : Nat) (d : String)
    (h1 : s.currentAssistantId = some cid)
    (h2 : s.messages.findIdx? (fun x => x.id == cid) = some idx) :
    reducer s (.event (.message_update "assistant" (some "text_delta") (some d)))
      = { s with messages := updateAt s.messages idx (fun m => { m with text := m.text ++ d }) } := by
  have hfun : applyDelta (some "text_delta") (some d)
      = (fun m => { m with text := m.text ++ d }) := by
    funext x
    by_cases hd : d = ""
    · subst hd
      simp [applyDelta, strTruthy, String.append_empty]
    · simp [applyDelta, strTruthy, bne_iff_ne, hd]
  simp [reducer, h1, h2, hfun]

theorem C3_invariant (deltas : List String) (s : AppState) (cid : String)
    (idx : Nat) (m : ChatMessage)
    (h1 : s.currentAssistantId = some cid)
    (h2 : s.messages.findIdx? (fun x => x.id == cid) = some idx)
    (h3 : s.messages[idx]? = some m) :
    (applyEvents s (textDeltaEvents deltas)).currentAssistantId = some cid ∧
    (applyEvents s (textDeltaEvents deltas)).messages.findIdx? (fun x => x.id == cid) = some idx ∧
    (applyEvents s (textDeltaEvents deltas)).messages[idx]? = some { m with text := m.text ++ joinList deltas } := by
  induction deltas generalizing s m with
  | nil =>
    refine ⟨h1, h2, ?_⟩
    simpa [applyEvents, textDeltaEvents, joinList, String.append_empty] using h3
  | cons d rest ih =>
    have hstep := reducer_text_delta s cid idx d h1 h2
    have happly : applyEvents s (textDeltaEvents (d :: rest))
        = applyEvents (reducer s (.event (.message_update "assistant" (some "text_delta") (some d)))) (textDeltaEvents rest) := by
      simp [applyEvents, textDeltaEvents]
    rw [happly, hstep]
    have h2' : (updateAt s.messages idx (fun m => { m with text := m.text ++ d })).findIdx? (fun x => x.id == cid) = some idx := by
      rw [findIdx?_updateAt (fun x => x.id == cid) s.messages idx
        (fun m => { m with text := m.text ++ d }) (fun x => rfl)]
      exact h2
    have h3' : (updateAt s.messages idx (fun m => { m with text := m.text ++ d }))[idx]? = some { m with text := m.text ++ d } := by
      rw [getElem?_updateAt_self, h3]
      rfl
    have := ih { s with messages := updateAt s.messages idx (fun m => { m with text := m.text ++ d }) }
      { m with text := m.text ++ d } h1 h2' h3'
    simpa [joinList, String.append_assoc] using this

/-- C3 (as claimed): for every way of splitting a string into ordered
deltas, starting from a state with a fresh (empty-text) in-progress
assistant message, applying the `message_update` text deltas in order
followed by a bare `message_end` yields the same final message text — the
concatenation of the deltas — as a single `message_end` whose explicit
content array holds one text block with that concatenation; both paths also
mark the message done. -/
theorem C3_delta_end_convergence (deltas : List String) (s : AppState)
    (cid : String) (idx : Nat) (m : ChatMessage)
    (h1 : s.currentAssistantId = some cid)
    (h2 : s.messages.findIdx? (fun x => x.id == cid) = some idx)
    (h3 : s.messages[idx]? = some m) (h4 : m.text = "") :
    ((applyEvents s (textDeltaEvents deltas ++ [.message_end "assistant" none])).messages[idx]?.map (fun x => (x.text, x.done)))
      = some (joinList deltas, true) ∧
    ((reducer s (.event (.message_end "assistant" (some [.text (some (joinList deltas))])))).messages[idx]?.map (fun x => (x.text, x.done)))
      = some (joinList deltas, true) := by
  constructor
  · have hinv := C3_invariant deltas s cid idx m h1 h2 h3
    have happly : applyEvents s (textDeltaEvents deltas ++ [.message_end "assistant" none])
        = reducer (applyEvents s (textDeltaEvents deltas)) (.event (.message_end "assistant" none)) := by
      simp [applyEvents]
    rw [happly]
    have hmsgs : (reducer (applyEvents s (textDeltaEvents deltas)) (.event (.message_end "assistant" none))).messages
        = updateAt (applyEvents s (textDeltaEvents deltas)).messages idx (finalizeMessage none) := by
      simp [reducer, hinv.1, hinv.2.1]
    rw [hmsgs, getElem?_updateAt_self, hinv.2.2]
    simp [finalizeMessage, h4, String.empty_append]
  · have hmsgs : (reducer s (.event (.message_end "assistant" (some [.text (some (joinList deltas))])))).messages
        = updateAt s.messages idx (finalizeMessage (some [.text (some (joinList deltas))])) := by
      simp [reducer, h1, h2]
    rw [hmsgs, getElem?_updateAt_self, h3]
    by_cases hj : joinList deltas = ""
    · simp [finalizeMessage, endText, endThinking, endToolCalls, strTruthy, hj, h4]
    · simp [finalizeMessage, endText, endThinking, endToolCalls, strTruthy,
        bne_iff_ne, hj, String.empty_append, h4]

/-- Witness for `C3_delta_end_convergence`: the spec's own scenario, deltas
"Hel" ++ "lo" on a fresh in-progress assistant message. -/
theorem C3_delta_end_convergence_witness :
    ((applyEvents oneAssistantState (textDeltaEvents ["Hel", "lo"] ++ [.message_end "assistant" none])).messages[0]?.map (fun x => (x.text, x.done)))
      = some (joinList ["Hel", "lo"], true) ∧
    ((reducer oneAssistantState (.event (.message_end "assistant" (some [.text (some (joinList ["Hel", "lo"]))])))).messages[0]?.map (fun x => (x.text, x.done)))
      = some (joinList ["Hel", "lo"], true) :=
  C3_delta_end_convergence ["Hel", "lo"] oneAssistantState "msg-1" 0
    { id := "msg-1", role := "assistant", text := "", thinking := "", toolCalls := [], done := false }
    rfl (by decide) rfl rfl

/-! ## C10 — events never remove or reorder existing messages -/

theorem take_map_self {α β : Type} (l : List α) (f : α → β) :
    (l.map f).take l.length = l.map f := by
  rw [← List.length_map l f, List.take_length]

theorem C10_helper_eq {α β : Type} (f : α → β) (l l' : List α)
    (h : l'.map f = l.map f) :
    ((l'.map f).take l.length = l.map f) ∧ l'.length ≤ l.length + 1 := by
  have hlen : l'.length = l.length := by
    have := congrArg List.length h
    simpa using this
  refine ⟨?_, by omega⟩
  rw [h, take_map_self]

theorem C10_helper_app {α β : Type} (f : α → β) (l : List α) (x : α) :
    (((l ++ [x]).map f).take l.length = l.map f) ∧ (l ++ [x]).length ≤ l.length + 1 := by
  refine ⟨?_, by simp⟩
  rw [List.map_append]
  rw [show l.length = (l.map f).length from (List.length_map l f).symm]
  simp [List.take_left]

theorem applyDelta_id (deltaType delta : Option String) (m : ChatMessage) :
    (applyDelta deltaType delta m).id = m.id := by
  unfold applyDelta
  split <;> simp
  split <;> simp

theorem finalizeMessage_id (c : Option (List SerializedContent)) (m : ChatMessage) :
    (finalizeMessage c m).id = m.id := by
  unfold finalizeMessage
  cases c with
  | none => rfl
  | some bs =>
    simp only
    split <;> split <;> split <;> simp

/-- C10: every streaming event (including the unhandled `turn_start`,
`turn_end`, `tool_execution_update`, `auto_retry_end`) maps the message list
to one that keeps every existing message's id in its original position and
is at most one element longer — events never remove or reorder existing
messages (only the `clear` and `history` actions replace the list). -/
theorem C10_events_preserve_messages (s : AppState) (e : Event) :
    ((reducer s (.event e)).messages.map (fun m => m.id)).take s.messages.length
      = s.messages.map (fun m => m.id) ∧
    (reducer s (.event e)).messages.length ≤ s.messages.length + 1 := by
  cases e with
  | user_message t =>
    exact C10_helper_app (fun (m : ChatMessage) => m.id) s.messages _
  | agent_start =>
    exact C10_helper_eq (fun (m : ChatMessage) => m.id) s.messages s.messages rfl
  | agent_end =>
    exact C10_helper_eq (fun (m : ChatMessage) => m.id) s.messages s.messages rfl
  | turn_start =>
    exact C10_helper_eq (fun (m : ChatMessage) => m.id) s.messages s.messages rfl
  | turn_end =>
    exact C10_helper_eq (fun (m : ChatMessage) => m.id) s.messages s.messages rfl
  | auto_retry_end b =>
    exact C10_helper_eq (fun (m : ChatMessage) => m.id) s.messages s.messages rfl
  | tool_execution_update tid tname pres =>
    exact C10_helper_eq (fun (m : ChatMessage) => m.id) s.messages s.messages rfl
  | auto_compaction_start =>
    exact C10_helper_app (fun (m : ChatMessage) => m.id) s.messages _
  | auto_retry_start a ma =>
    exact C10_helper_app (fun (m : ChatMessage) => m.id) s.messages _
  | message_start role =>
    by_cases hr : role == "assistant"
    · simp only [reducer, hr, if_true]
      exact C10_helper_app (fun (m : ChatMessage) => m.id) s.messages _
    · simp only [Bool.not_eq_true] at hr
      simp only [reducer, hr]
      exact C10_helper_eq (fun (m : ChatMessage) => m.id) s.messages s.messages rfl
  | message_update role dT d =>
    have : (reducer s (.event (.message_update role dT d))).messages.map (fun m => m.id)
        = s.messages.map (fun m => m.id) := by
      simp only [reducer]
      cases s.currentAssistantId with
      | none => rfl
      | some cid =>
        by_cases hr : role == "assistant"
        · simp only [hr, if_true]
          cases hidx : s.messages.findIdx? (fun m => m.id == cid) with
          | none => rfl
          | some idx =>
            simp only
            exact map_updateAt _ _ _ _ (fun x => applyDelta_id dT d x)
        · simp only [Bool.not_eq_true] at hr
          simp [hr]
    exact C10_helper_eq (fun (m : ChatMessage) => m.id) s.messages _ this
  | message_end role content =>
    have : (reducer s (.event (.message_end role content))).messages.map (fun m => m.id)
        = s.messages.map (fun m => m.id) := by
      simp only [reducer]
      cases s.currentAssistantId with
      | none => rfl
      | some cid =>
        by_cases hr : role == "assistant"
        · simp only [hr, if_true]
          cases hidx : s.messages.findIdx? (fun m => m.id == cid) with
          | none => rfl
          | some idx =>
            simp only
            exact map_updateAt _ _ _ _ (fun x => finalizeMessage_id content x)
        · simp only [Bool.not_eq_true] at hr
          simp [hr]
    exact C10_helper_eq (fun (m : ChatMessage) => m.id) s.messages _ this
  | tool_execution_start tid tname args =>
    have : (reducer s (.event (.tool_execution_start tid tname args))).messages.map (fun m => m.id)
        = s.messages.map (fun m => m.id) := by
      simp only [reducer, updateLastAssistant]
      apply map_updateLast
      intro x
      cases hidx : x.toolCalls.findIdx? (fun tc => tc.toolCallId == tid) <;> simp [hidx]
    exact C10_helper_eq (fun (m : ChatMessage) => m.id) s.messages _ this
  | tool_execution_end tid tname res isErr =>
    have : (reducer s (.event (.tool_execution_end tid tname res isErr))).messages.map (fun m => m.id)
        = s.messages.map (fun m => m.id) := by
      simp only [reducer, updateLastAssistant]
      apply map_updateLast
      intro x
      cases hidx : x.toolCalls.findIdx? (fun tc => tc.toolCallId == tid) <;> simp [hidx]
    exact C10_helper_eq (fun (m : ChatMessage) => m.id) s.messages _ this
  | auto_compaction_end summary tokensBefore =>
    have : (reducer s (.event (.auto_compaction_end summary tokensBefore))).messages.map (fun m => m.id)
        = s.messages.map (fun m => m.id) := by
      simp only [reducer]
      cases hlast : s.messages.getLast? with
      | none => rfl
      | some last =>
        by_cases hc : (last.role == "system" && strIncludes last.text "Compacting") = true
        · simp only [hc, if_true]
          have hsplit := dropLast_concat_of_getLast? s.messages last hlast
          calc (s.messages.dropLast ++ [{ last with text := compactionLabel tokensBefore, thinking := summary.getD "", done := true }]).map (fun (m : ChatMessage) => m.id)
              = s.messages.dropLast.map (fun (m : ChatMessage) => m.id) ++ [last.id] := by
                simp [compactionLabel]
            _ = (s.messages.dropLast ++ [last]).map (fun (m : ChatMessage) => m.id) := by simp
            _ = s.messages.map (fun (m : ChatMessage) => m.id) := by rw [hsplit]
        · simp only [Bool.not_eq_true] at hc
          simp [hc]
    exact C10_helper_eq (fun (m : ChatMessage) => m.id) s.messages _ this

/-! ## C9 — `getHistory` folds tool results into the nearest preceding
assistant message, dropping unmatched results without failing -/

/-- Spec side: the index of the last element satisfying `p` ("the nearest
preceding" when the list is read as oldest-first). -/
def lastIdxP {α : Type} (p : α → Bool) : List α → Option Nat
  | [] => none
  | x :: xs =>
    match lastIdxP p xs with
    | some k => some (k + 1)
    | none => if p x then some 0 else none

theorem any_eq_isSome_lastIdxP {α : Type} (p : α → Bool) (l : List α) :
    l.any p = (lastIdxP p l).isSome := by
  induction l with
  | nil => rfl
  | cons x xs ih =>
    simp only [List.any_cons, lastIdxP]
    cases hxs : lastIdxP p xs with
    | some k =>
      have hany : xs.any p = true := by
        rw [ih, hxs]
        rfl
      simp [hany]
    | none =>
      have hany : xs.any p = false := by
        rw [ih, hxs]
        rfl
      by_cases hx : p x = true
      · simp [hx, hany]
      · simp only [Bool.not_eq_true] at hx
        simp [hx, hany]

/-- The backward scan-with-break equals "update at the index of the last
element satisfying `p`". -/
theorem updateLast_eq_updateAt_lastIdxP {α : Type} (p : α → Bool) (f : α → α)
    (l : List α) :
    updateLast p f l =
      match lastIdxP p l with
      | none => l
      | some k => updateAt l k f := by
  induction l with
  | nil => rfl
  | cons x xs ih =>
    simp only [updateLast, lastIdxP]
    cases hxs : lastIdxP p xs with
    | some k =>
      have hany : xs.any p = true := by
        rw [any_eq_isSome_lastIdxP, hxs]
        rfl
      rw [hxs] at ih
      simp [hany, ih, updateAt]
    | none =>
      have hany : xs.any p = false := by
        rw [any_eq_isSome_lastIdxP, hxs]
        rfl
      rw [hxs] at ih
      by_cases hx : p x = true
      · simp [hany, hx, updateAt]
      · simp only [Bool.not_eq_true] at hx
        simp [hany, hx]

/-- C9: appending a `toolResult` message entry to the history fold updates
exactly the nearest preceding (last) assistant message: its first tool-call
slot whose call id matches the toolResult's call id receives the result,
error flag and details; if that assistant message has no matching slot, or
no assistant message exists, the result is dropped and the fold continues
unchanged (the source logs a diagnostic); in every case no history message
is added or removed, and the fold is a total function (never throws). -/
theorem C9_toolResult_fold (entries : List Entry) (e : Entry) (msg : MsgPayload)
    (h1 : e.type = "message") (h2 : e.message = some msg)
    (h3 : msg.role = "toolResult") :
    (getHistory (entries ++ [e])
      = (match lastIdxP (fun m => m.role == "assistant") (getHistory entries) with
         | none => getHistory entries
         | some k =>
           updateAt (getHistory entries) k (fun m =>
             match m.toolCalls.findIdx? (fun t => some t.toolCallId == msg.toolCallId) with
             | none => m
             | some j => { m with toolCalls := updateAt m.toolCalls j (fun t => { t with result := some msg.content, isError := msg.isError, details := msg.details }) }))) ∧
    (getHistory (entries ++ [e])).length = (getHistory entries).length := by
  have hstep : getHistory (entries ++ [e])
      = historyStep (getHistory entries) e := by
    simp [getHistory, List.foldl_append]
  have hfold : historyStep (getHistory entries) e
      = updateLast (fun m => m.role == "assistant") (applyToolResult msg)
          (getHistory entries) := by
    simp [historyStep, h1, h2, h3]
  have happly : (fun (m : HistoryMessage) =>
      match m.toolCalls.findIdx? (fun t => some t.toolCallId == msg.toolCallId) with
      | none => m
      | some j => { m with toolCalls := updateAt m.toolCalls j (fun t => { t with result := some msg.content, isError := msg.isError, details := msg.details }) })
      = applyToolResult msg := by
    funext m
    simp only [applyToolResult]
    cases hidx : m.toolCalls.findIdx? (fun t => some t.toolCallId == msg.toolCallId) <;> rfl
  rw [hstep, hfold, happly, updateLast_eq_updateAt_lastIdxP]
  refine ⟨rfl, ?_⟩
  cases lastIdxP (fun m => m.role == "assistant") (getHistory entries) with
  | none => rfl
  | some k => simp [length_updateAt]

/-- An assistant message entry with one tool call (id "t1"). -/
def histAsstEntry : Entry :=
  { id := "1", type := "message", message := some { role := "assistant", content := .arr [.toolCall (some "t1") none (some "bash") none none none] } }

/-- A toolResult message entry answering call "t1". -/
def histToolResEntry : Entry :=
  { id := "2", type := "message", message := some { role := "toolResult", content := .str "ok", toolCallId := some "t1", isError := some false } }

/-- Witness for `C9_toolResult_fold`: one assistant message with slot "t1"
followed by the toolResult for "t1". -/
theorem C9_toolResult_fold_witness :
    (getHistory ([histAsstEntry] ++ [histToolResEntry])
      = (match lastIdxP (fun m => m.role == "assistant") (getHistory [histAsstEntry]) with
         | none => getHistory [histAsstEntry]
         | some k =>
           updateAt (getHistory [histAsstEntry]) k (fun m =>
             match m.toolCalls.findIdx? (fun t => some t.toolCallId == (some "t1" : Option String)) with
             | none => m
             | some j => { m with toolCalls := updateAt m.toolCalls j (fun t => { t with result := some (.str "ok"), isError := some false, details := none }) }))) ∧
    (getHistory ([histAsstEntry] ++ [histToolResEntry])).length
      = (getHistory [histAsstEntry]).length :=
  C9_toolResult_fold [histAsstEntry] histToolResEntry
    { role := "toolResult", content := .str "ok", toolCallId := some "t1", isError := some false }
    rfl rfl rfl

/-! ## Flattener lemmas shared by C5 and C6 -/

mutual
/-- The DFS rows of a node are a permutation of the rows of its pre-order
nodes (the active-first reordering only permutes). -/
theorem dfsN_perm (leafId : Option String) (n : TreeNode) :
    (dfsN leafId n).Perm ((preOrderN n).map (fun m => mkRow leafId m.entry)) :=
  match n with
  | .mk e lb cs => by
    simp only [dfsN, preOrderN, List.map_cons]
    exact List.Perm.cons _ (dfsGroups_perm leafId cs)

theorem dfsGroups_perm (leafId : Option String) (cs : Forest) :
    (dfsGroup leafId true cs ++ dfsGroup leafId false cs).Perm
      ((preOrderF cs).map (fun m => mkRow leafId m.entry)) :=
  match cs with
  | .nil => by simp [dfsGroup, preOrderF]
  | .cons n rest => by
    have ihn := dfsN_perm leafId n
    have ihr := dfsGroups_perm leafId rest
    by_cases hca : containsActive leafId n = true
    · have h1 : dfsGroup leafId true (.cons n rest)
          = dfsN leafId n ++ dfsGroup leafId true rest := by
        simp [dfsGroup, hca]
      have h2 : dfsGroup leafId false (.cons n rest) = dfsGroup leafId false rest := by
        simp [dfsGroup, hca]
      rw [h1, h2, List.append_assoc]
      have hgoal := List.Perm.append ihn ihr
      simpa [preOrderN, preOrderF, List.map_append] using hgoal
    · have hca' : containsActive leafId n = false := by
        simpa using hca
      have h1 : dfsGroup leafId true (.cons n rest) = dfsGroup leafId true rest := by
        simp [dfsGroup, hca']
      have h2 : dfsGroup leafId false (.cons n rest)
          = dfsN leafId n ++ dfsGroup leafId false rest := by
        simp [dfsGroup, hca']
      rw [h1, h2]
      have hmid : (dfsGroup leafId true rest ++ (dfsN leafId n ++ dfsGroup leafId false rest)).Perm
          (dfsN leafId n ++ (dfsGroup leafId true rest ++ dfsGroup leafId false rest)) := by
        rw [show dfsGroup leafId true rest ++ (dfsN leafId n ++ dfsGroup leafId false rest)
              = (dfsGroup leafId true rest ++ dfsN leafId n) ++ dfsGroup leafId false rest from
            (List.append_assoc _ _ _).symm,
          show dfsN leafId n ++ (dfsGroup leafId true rest ++ dfsGroup leafId false rest)
              = (dfsN leafId n ++ dfsGroup leafId true rest) ++ dfsGroup leafId false rest from
            (List.append_assoc _ _ _).symm]
        exact List.Perm.append_right _ List.perm_append_comm
      refine hmid.trans ?_
      have hgoal := List.Perm.append ihn ihr
      simpa [preOrderN, preOrderF, List.map_append] using hgoal
end

theorem dfsRoots_perm (leafId : Option String) (tree : Forest) :
    (dfsRoots leafId tree).Perm ((preOrderF tree).map (fun m => mkRow leafId m.entry)) :=
  dfsGroups_perm leafId tree

theorem mkRow_id (leafId : Option String) (e : Entry) : (mkRow leafId e).id = e.id := rfl

theorem mkRow_parentId (leafId : Option String) (e : Entry) :
    (mkRow leafId e).parentId = e.parentId := rfl

theorem dfsRoots_ids_perm (leafId : Option String) (tree : Forest) :
    ((dfsRoots leafId tree).map (fun r => r.id)).Perm
      ((preOrderF tree).map (fun n => n.entry.id)) := by
  have h := (dfsRoots_perm leafId tree).map (fun r => r.id)
  simpa [List.map_map, Function.comp] using h

theorem nodup_dfsRoots_ids (leafId : Option String) (tree : Forest)
    (hnd : ((preOrderF tree).map (fun n => n.entry.id)).Nodup) :
    ((dfsRoots leafId tree).map (fun r => r.id)).Nodup :=
  ((dfsRoots_ids_perm leafId tree).nodup_iff).mpr hnd

theorem mem_dfsRoots_iff (leafId : Option String) (tree : Forest) (r : FlatTreeNode) :
    r ∈ dfsRoots leafId tree ↔ ∃ n ∈ preOrderF tree, r = mkRow leafId n.entry := by
  rw [(dfsRoots_perm leafId tree).mem_iff, List.mem_map]
  constructor
  · rintro ⟨n, hn, rfl⟩
    exact ⟨n, hn, rfl⟩
  · rintro ⟨n, hn, rfl⟩
    exact ⟨n, hn, rfl⟩

theorem find?_by_id_eq (l : List FlatTreeNode)
    (hnd : (l.map (fun r => r.id)).Nodup) (r : FlatTreeNode) (hr : r ∈ l) :
    l.find? (fun y => y.id == r.id) = some r := by
  induction l with
  | nil => simp at hr
  | cons b bs ih =>
    simp only [List.map_cons, List.nodup_cons] at hnd
    by_cases hb : (b.id == r.id) = true
    · have hbid : b.id = r.id := by simpa using hb
      have hrb : r = b := by
        rcases List.mem_cons.1 hr with h | h
        · exact h
        · exfalso
          exact hnd.1 (hbid ▸ List.mem_map_of_mem (fun x => x.id) h)
      subst hrb
      exact List.find?_cons_of_pos bs (by simp)
    · have hrbs : r ∈ bs := by
        rcases List.mem_cons.1 hr with h | h
        · exfalso
          apply hb
          rw [h]
          simp
        · exact h
      rw [List.find?_cons_of_neg _ (by simpa using hb)]
      exact ih hnd.2 hrbs

theorem lookupLast_eq_some (rows : List FlatTreeNode)
    (hnd : (rows.map (fun r => r.id)).Nodup) (r : FlatTreeNode) (hr : r ∈ rows) :
    lookupLast rows r.id = some r := by
  unfold lookupLast
  apply find?_by_id_eq
  · rw [List.map_reverse]
    exact List.nodup_reverse.mpr hnd
  · exact List.mem_reverse.mpr hr

theorem lookupLast_mem (rows : List FlatTreeNode) (x : String) (row : FlatTreeNode)
    (h : lookupLast rows x = some row) : row ∈ rows ∧ row.id = x := by
  unfold lookupLast at h
  refine ⟨List.mem_reverse.mp (List.mem_of_find?_eq_some h), ?_⟩
  have := List.find?_some h
  simpa using this

/-- A nonempty id chain `a :: ...` in which each element's row points (via
`parentId`) to the next, and the last element's row points to `top`. -/
def chainOK (rows : List FlatTreeNode) : List String → Option String → Prop
  | [], _ => False
  | [a], top => ∃ row, lookupLast rows a = some row ∧ row.parentId = top
  | a :: b :: rest, top =>
    (∃ row, lookupLast rows a = some row ∧ row.parentId = some b) ∧
      chainOK rows (b :: rest) top

theorem chainOK_append (rows : List FlatTreeNode) (r : List String) (a : String)
    (top : Option String) (h : chainOK rows r (some a))
    (ha : ∃ row, lookupLast rows a = some row ∧ row.parentId = top) :
    chainOK rows (r ++ [a]) top := by
  induction r with
  | nil => exact absurd h (by simp [chainOK])
  | cons x xs ih =>
    cases xs with
    | nil =>
      simp only [chainOK] at h
      exact ⟨h, ha⟩
    | cons y ys =>
      simp only [chainOK] at h
      exact ⟨h.1, ih h.2⟩

theorem chainOK_forall_mem (rows : List FlatTreeNode) (r : List String)
    (top : Option String) (h : chainOK rows r top) :
    ∀ x ∈ r, ∃ row ∈ rows, row.id = x := by
  induction r with
  | nil => simp
  | cons a xs ih =>
    cases xs with
    | nil =>
      intro x hx
      simp only [List.mem_singleton] at hx
      subst hx
      obtain ⟨row, hrow, _⟩ := h
      obtain ⟨hmem, hid⟩ := lookupLast_mem rows x row hrow
      exact ⟨row, hmem, hid⟩
    | cons y ys =>
      intro x hx
      obtain ⟨⟨row, hrow, _⟩, hrest⟩ := h
      rcases List.mem_cons.1 hx with rfl | hx'
      · obtain ⟨hmem, hid⟩ := lookupLast_mem rows x row hrow
        exact ⟨row, hmem, hid⟩
      · exact ih hrest x hx'

theorem activeChainGo_of_chainOK (rows : List FlatTreeNode) :
    ∀ (r' : List String) (a : String) (fuel : Nat),
      chainOK rows (a :: r') none → (∀ x ∈ a :: r', x ≠ "") →
      (a :: r').length ≤ fuel → activeChainGo rows fuel a = a :: r' := by
  intro r'
  induction r' with
  | nil =>
    intro a fuel h hne hlen
    cases fuel with
    | zero => simp at hlen
    | succ f =>
      obtain ⟨row, hrow, hpar⟩ := h
      have ha : (a == "") = false := by
        simp [hne a (List.mem_singleton_self a)]
      simp [activeChainGo, ha, hrow, hpar]
  | cons b rest ih =>
    intro a fuel h hne hlen
    cases fuel with
    | zero => simp at hlen
    | succ f =>
      obtain ⟨⟨row, hrow, hpar⟩, hrest⟩ := h
      have ha : (a == "") = false := by
        simp [hne a (List.mem_cons_self a _)]
      have htail := ih b f hrest
        (fun x hx => hne x (List.mem_cons_of_mem a hx))
        (by simpa using Nat.lt_succ_iff.mp (by simpa using hlen))
      simp [activeChainGo, ha, hrow, hpar, htail]

mutual
/-- A spec-side path through a well-formed node yields a parent-link chain
(reversed) over the DFS rows. -/
theorem nodePath_chainOK (rows : List FlatTreeNode) (leafId : Option String)
    (n : TreeNode) (parent : Option String) (l : String) (p : List String)
    (hwf : nodeWF parent n = true)
    (hrows : ∀ m ∈ preOrderN n, lookupLast rows m.entry.id = some (mkRow leafId m.entry))
    (hp : nodePath l n = some p) : chainOK rows p.reverse parent :=
  match n with
  | .mk e lb cs => by
    simp only [nodeWF, Bool.and_eq_true, beq_iff_eq] at hwf
    have hself : lookupLast rows e.id = some (mkRow leafId e) := by
      have := hrows (.mk e lb cs) (by simp [preOrderN])
      simpa using this
    simp only [nodePath] at hp
    by_cases heq : e.id = l
    · simp only [heq, if_true] at hp
      obtain rfl : [e.id] = p := by simpa [heq] using hp
      refine ⟨mkRow leafId e, hself, ?_⟩
      rw [mkRow_parentId, hwf.1]
    · simp only [heq, if_false] at hp
      cases hq : forestPath l cs with
      | none => rw [hq] at hp; exact absurd hp (by simp)
      | some q =>
        rw [hq] at hp
        obtain rfl : e.id :: q = p := by simpa using hp
        have hchain := forestPath_chainOK rows leafId cs (some e.id) l q hwf.2
          (fun m hm => hrows m (by simp [preOrderN, hm])) hq
        rw [List.reverse_cons]
        exact chainOK_append rows q.reverse e.id parent hchain
          ⟨mkRow leafId e, hself, by rw [mkRow_parentId, hwf.1]⟩

theorem forestPath_chainOK (rows : List FlatTreeNode) (leafId : Option String)
    (cs : Forest) (parent : Option String) (l : String) (p : List String)
    (hwf : forestWF parent cs = true)
    (hrows : ∀ m ∈ preOrderF cs, lookupLast rows m.entry.id = some (mkRow leafId m.entry))
    (hp : forestPath l cs = some p) : chainOK rows p.reverse parent :=
  match cs with
  | .nil => by simp [forestPath] at hp
  | .cons n rest => by
    simp only [forestWF, Bool.and_eq_true] at hwf
    simp only [forestPath] at hp
    cases hn : nodePath l n with
    | some q =>
      rw [hn] at hp
      obtain rfl : q = p := by simpa using hp
      exact nodePath_chainOK rows leafId n parent l _ hwf.1
        (fun m hm => hrows m (by simp [preOrderF, hm])) hn
    | none =>
      rw [hn] at hp
      exact forestPath_chainOK rows leafId rest parent l p hwf.2
        (fun m hm => hrows m (by simp [preOrderF, hm])) hp
end

mutual
/-- The spec-side path ends at the leaf id. -/
theorem nodePath_getLast (n : TreeNode) (l : String) (p : List String)
    (hp : nodePath l n = some p) : p ≠ [] ∧ p.getLast? = some l :=
  match n with
  | .mk e lb cs => by
    simp only [nodePath] at hp
    by_cases heq : e.id = l
    · simp only [heq, if_true] at hp
      obtain rfl : [l] = p := by simpa [heq] using hp
      simp
    · simp only [heq, if_false] at hp
      cases hq : forestPath l cs with
      | none => rw [hq] at hp; exact absurd hp (by simp)
      | some q =>
        rw [hq] at hp
        obtain rfl : e.id :: q = p := by simpa using hp
        obtain ⟨hne, hlast⟩ := forestPath_getLast cs l q hq
        refine ⟨by simp, ?_⟩
        rw [List.getLast?_cons, hlast]
        cases q with
        | nil => exact absurd rfl hne
        | cons y ys => simp [List.getLast?_cons]

theorem forestPath_getLast (cs : Forest) (l : String) (p : List String)
    (hp : forestPath l cs = some p) : p ≠ [] ∧ p.getLast? = some l :=
  match cs with
  | .nil => by simp [forestPath] at hp
  | .cons n rest => by
    simp only [forestPath] at hp
    cases hn : nodePath l n with
    | some q =>
      rw [hn] at hp
      obtain rfl : q = p := by simpa using hp
      exact nodePath_getLast n l _ hn
    | none =>
      rw [hn] at hp
      exact forestPath_getLast rest l p hp
end

mutual
/-- The spec-side path has no duplicate ids and stays within the subtree's
pre-order ids, when those are duplicate-free. -/
theorem nodePath_nodup_subset (n : TreeNode) (l : String) (p : List String)
    (hnd : ((preOrderN n).map (fun m => m.entry.id)).Nodup)
    (hp : nodePath l n = some p) :
    p.Nodup ∧ ∀ x ∈ p, x ∈ (preOrderN n).map (fun m => m.entry.id) :=
  match n with
  | .mk e lb cs => by
    simp only [nodePath] at hp
    by_cases heq : e.id = l
    · simp only [heq, if_true] at hp
      obtain rfl : [e.id] = p := by simpa [heq] using hp
      refine ⟨by simp, ?_⟩
      intro x hx
      simp only [List.mem_singleton] at hx
      subst hx
      simp [preOrderN, TreeNode.entry]
    · simp only [heq, if_false] at hp
      cases hq : forestPath l cs with
      | none => rw [hq] at hp; exact absurd hp (by simp)
      | some q =>
        rw [hq] at hp
        obtain rfl : e.id :: q = p := by simpa using hp
        have hnd' : ((preOrderF cs).map (fun m => m.entry.id)).Nodup := by
          simp only [preOrderN, List.map_cons, List.nodup_cons] at hnd
          exact hnd.2
        have hnotin : e.id ∉ (preOrderF cs).map (fun m => m.entry.id) := by
          simp only [preOrderN, List.map_cons, List.nodup_cons] at hnd
          exact hnd.1
        obtain ⟨hqnd, hqsub⟩ := forestPath_nodup_subset cs l q hnd' hq
        refine ⟨?_, ?_⟩
        · rw [List.nodup_cons]
          exact ⟨fun hmem => hnotin (hqsub _ hmem), hqnd⟩
        · intro x hx
          rcases List.mem_cons.1 hx with rfl | hx'
          · simp [preOrderN, TreeNode.entry]
          · simp only [preOrderN, List.map_cons, List.mem_cons]
            exact Or.inr (hqsub x hx')

theorem forestPath_nodup_subset (cs : Forest) (l : String) (p : List String)
    (hnd : ((preOrderF cs).map (fun m => m.entry.id)).Nodup)
    (hp : forestPath l cs = some p) :
    p.Nodup ∧ ∀ x ∈ p, x ∈ (preOrderF cs).map (fun m => m.entry.id) :=
  match cs with
  | .nil => by simp [forestPath] at hp
  | .cons n rest => by
    simp only [forestPath] at hp
    have hsplit : (preOrderF (.cons n rest)).map (fun m => m.entry.id)
        = (preOrderN n).map (fun m => m.entry.id) ++ (preOrderF rest).map (fun m => m.entry.id) := by
      simp [preOrderF]
    cases hn : nodePath l n with
    | some q =>
      rw [hn] at hp
      obtain rfl : q = p := by simpa using hp
      have hndl : ((preOrderN n).map (fun m => m.entry.id)).Nodup := by
        rw [hsplit] at hnd
        exact hnd.of_append_left
      obtain ⟨hnd1, hsub1⟩ := nodePath_nodup_subset n l _ hndl hn
      refine ⟨hnd1, fun x hx => ?_⟩
      rw [hsplit]
      exact List.mem_append_left _ (hsub1 x hx)
    | none =>
      rw [hn] at hp
      have hndr : ((preOrderF rest).map (fun m => m.entry.id)).Nodup := by
        rw [hsplit] at hnd
        exact hnd.of_append_right
      obtain ⟨hnd1, hsub1⟩ := forestPath_nodup_subset rest l p hndr hp
      refine ⟨hnd1, fun x hx => ?_⟩
      rw [hsplit]
      exact List.mem_append_right _ (hsub1 x hx)
end

mutual
/-- If the leaf id occurs among a subtree's entry ids, the spec-side path
exists. -/
theorem nodePath_isSome_of_mem (n : TreeNode) (l : String)
    (h : l ∈ (preOrderN n).map (fun m => m.entry.id)) : (nodePath l n).isSome :=
  match n with
  | .mk e lb cs => by
    simp only [nodePath]
    by_cases heq : e.id = l
    · simp [heq]
    · simp only [heq, if_false]
      have hmem : l ∈ (preOrderF cs).map (fun m => m.entry.id) := by
        simp only [preOrderN, List.map_cons, List.mem_cons] at h
        rcases h with h | h
        · exact absurd h.symm heq
        · exact h
      have := forestPath_isSome_of_mem cs l hmem
      cases hq : forestPath l cs with
      | none => rw [hq] at this; simp at this
      | some q => simp

theorem forestPath_isSome_of_mem (cs : Forest) (l : String)
    (h : l ∈ (preOrderF cs).map (fun m => m.entry.id)) : (forestPath l cs).isSome :=
  match cs with
  | .nil => by simp [preOrderF] at h
  | .cons n rest => by
    simp only [forestPath]
    simp only [preOrderF, List.map_append, List.mem_append] at h
    cases hn : nodePath l n with
    | some q => simp
    | none =>
      rcases h with h | h
      · have := nodePath_isSome_of_mem n l h
        rw [hn] at this
        simp at this
      · exact forestPath_isSome_of_mem rest l h
end

theorem rowsHas_of_wf (tree : Forest) (leafId : Option String)
    (hnd : ((preOrderF tree).map (fun n => n.entry.id)).Nodup) :
    ∀ m ∈ preOrderF tree,
      lookupLast (dfsRoots leafId tree) m.entry.id = some (mkRow leafId m.entry) := by
  intro m hm
  have hmem : mkRow leafId m.entry ∈ dfsRoots leafId tree :=
    (mem_dfsRoots_iff _ _ _).mpr ⟨m, hm, rfl⟩
  have := lookupLast_eq_some (dfsRoots leafId tree)
    (nodup_dfsRoots_ids leafId tree hnd) (mkRow leafId m.entry) hmem
  simpa [mkRow_id] using this

/-- Under the data-model invariant, the ids collected by the active-branch
walk are exactly the spec's ancestors (inclusive) of the leaf id in the
unfiltered forest. -/
theorem activeIds_eq_specAncestors (tree : Forest) (leafId : Option String)
    (hwf : WFForest tree) :
    ∀ x, x ∈ activeIds (dfsRoots leafId tree) leafId ↔ x ∈ specAncestors tree leafId := by
  obtain ⟨hwf1, hnd, hne⟩ := hwf
  cases leafId with
  | none => intro x; simp [activeIds, specAncestors]
  | some l =>
    cases hpath : forestPath l tree with
    | none =>
      intro x
      have hany : (dfsRoots (some l) tree).any (fun r => r.id == l) = false := by
        by_contra hc
        rw [Bool.not_eq_false, List.any_eq_true] at hc
        obtain ⟨r, hr, hrid⟩ := hc
        obtain ⟨n, hn, rfl⟩ := (mem_dfsRoots_iff _ _ _).mp hr
        have hlid : l ∈ (preOrderF tree).map (fun n => n.entry.id) := by
          have : n.entry.id = l := by simpa [mkRow_id] using hrid
          exact this ▸ List.mem_map_of_mem _ hn
        have := forestPath_isSome_of_mem tree l hlid
        rw [hpath] at this
        simp at this
      simp [activeIds, specAncestors, hpath, hany]
    | some p =>
      have hrows := rowsHas_of_wf tree (some l) hnd
      have hchain := forestPath_chainOK (dfsRoots (some l) tree) (some l) tree
        none l p hwf1 hrows hpath
      obtain ⟨hpne, hlast⟩ := forestPath_getLast tree l p hpath
      obtain ⟨hpnd, hpsub⟩ := forestPath_nodup_subset tree l p hnd hpath
      have hsplit : p.dropLast ++ [l] = p := dropLast_concat_of_getLast? p l hlast
      have hrev : p.reverse = l :: p.dropLast.reverse := by
        conv_lhs => rw [← hsplit]
        simp
      have hlid : l ∈ (preOrderF tree).map (fun n => n.entry.id) := by
        apply hpsub l
        rw [← hsplit]
        exact List.mem_append_right _ (List.mem_singleton_self l)
      have hlne : l ≠ "" := by
        obtain ⟨n, hn, hid⟩ := List.mem_map.1 hlid
        exact hid ▸ hne n hn
      have hallne : ∀ x ∈ l :: p.dropLast.reverse, x ≠ "" := by
        intro x hx
        rw [← hrev] at hx
        have hx' : x ∈ p := List.mem_reverse.1 hx
        obtain ⟨n, hn, hid⟩ := List.mem_map.1 (hpsub x hx')
        exact hid ▸ hne n hn
      have hany : (dfsRoots (some l) tree).any (fun r => r.id == l) = true := by
        obtain ⟨n, hn, hid⟩ := List.mem_map.1 hlid
        refine List.any_eq_true.2 ⟨mkRow (some l) n.entry, (mem_dfsRoots_iff _ _ _).mpr ⟨n, hn, rfl⟩, ?_⟩
        simp [mkRow_id, hid]
      have hlen : (l :: p.dropLast.reverse).length ≤ (dfsRoots (some l) tree).length + 1 := by
        have hlenp : (l :: p.dropLast.reverse).length = p.length := by
          rw [← hrev, List.length_reverse]
        have h1 : p.length ≤ ((preOrderF tree).map (fun n => n.entry.id)).length :=
          (List.subperm_of_subset hpnd (fun x hx => hpsub x hx)).length_le
        have h2 : (dfsRoots (some l) tree).length = (preOrderF tree).length := by
          have := (dfsRoots_perm (some l) tree).length_eq
          simpa using this
        rw [hlenp, h2]
        simp only [List.length_map] at h1
        omega
      have hchainrun : activeChainGo (dfsRoots (some l) tree)
          ((dfsRoots (some l) tree).length + 1) l = l :: p.dropLast.reverse := by
        apply activeChainGo_of_chainOK
        · rw [← hrev]
          exact hchain
        · exact hallne
        · exact hlen
      intro x
      have hiff : activeIds (dfsRoots (some l) tree) (some l)
          = activeChainGo (dfsRoots (some l) tree) ((dfsRoots (some l) tree).length + 1) l := by
        simp [activeIds, hany, bne_iff_ne, hlne]
      rw [hiff, hchainrun, ← hrev]
      simp [specAncestors, hpath, List.mem_reverse]

theorem contains_iff_mem (l : List String) (x : String) :
    l.contains x = true ↔ x ∈ l := by
  induction l with
  | nil => simp
  | cons a as ih =>
    simp only [List.contains_cons, Bool.or_eq_true, beq_iff_eq, List.mem_cons, ih]

/-- The marked row list, unfolded. -/
theorem flattenAllMarked_eq (tree : Forest) (leafId : Option String) :
    flattenAllMarked tree leafId
      = (dfsRoots leafId tree).map (fun r =>
          { r with isOnActiveBranch := (activeIds (dfsRoots leafId tree) leafId).contains r.id }) := rfl

theorem mem_flattenSessionTree (tree : Forest) (leafId : Option String)
    (r : FlatTreeNode) (h : r ∈ flattenSessionTree tree leafId) :
    r ∈ flattenAllMarked tree leafId ∧ keepRow (preOrderF tree) leafId r = true := by
  unfold flattenSessionTree at h
  cases tree with
  | nil => simp at h
  | cons n rest =>
    simp only at h
    by_cases hemp : ((flattenAllMarked (.cons n rest) leafId).filter
        (keepRow (preOrderF (.cons n rest)) leafId)).isEmpty = true
    · rw [if_pos hemp] at h
      simp at h
    · rw [if_neg hemp] at h
      exact ⟨(List.mem_filter.1 h).1, (List.mem_filter.1 h).2⟩

/-! ## C5 — active-branch marking versus visibility filtering -/

/-- The assistant message entry of the counterexamples: its content is a
single tool-call block (no text). -/
def cexAsstEntry : Entry :=
  { id := "a", parentId := none, type := "message", message := some { role := "assistant", content := .arr [.toolCall (some "t1") none (some "bash") none none none] } }

/-- A user message entry b whose parent is a. -/
def cexUserEntry : Entry :=
  { id := "b", parentId := some "a", type := "message", message := some { role := "user", content := .str "hi" } }

/-- The two-node chain a → b. -/
def cexForest : Forest :=
  .cons (.mk cexAsstEntry none (.cons (.mk cexUserEntry none .nil) .nil)) .nil

/-- C5 counterexample: with leaf "b", the ancestors of "b" in the unfiltered
forest are {a, b}, but the output of `flattenSessionTree` holds no row
marked active with id "a" — the ancestor row "a" (an assistant message with
only a tool call) was removed by the visibility filter, so the set of row
ids marked active in the output is a strict subset of the ancestors. -/
theorem C5_counterexample :
    "a" ∈ specAncestors cexForest (some "b") ∧
    ¬ ∃ r ∈ flattenSessionTree cexForest (some "b"),
        r.isOnActiveBranch = true ∧ r.id = "a" := by
  constructor
  · decide
  · decide

/-- C5 (amended): under the data-model invariant, the active-branch flag of
every row equals membership of its id in the ancestors (inclusive) of
`leafId` in the original unfiltered forest (so the flag is computed before —
and unchanged by — visibility filtering, and no flag is set when `leafId`
is null or absent); over the *unfiltered* row list the set of ids marked
active equals the ancestors exactly. The filtered output can omit ancestor
rows (see the counterexample), so there the equality only survives as this
per-row equivalence. -/
theorem C5_active_flags (tree : Forest) (leafId : Option String)
    (hwf : WFForest tree) :
    (∀ r ∈ flattenSessionTree tree leafId,
       (r.isOnActiveBranch = true ↔ r.id ∈ specAncestors tree leafId)) ∧
    (∀ x : String,
       (∃ r ∈ flattenAllMarked tree leafId, r.isOnActiveBranch = true ∧ r.id = x)
         ↔ x ∈ specAncestors tree leafId) := by
  have hact := activeIds_eq_specAncestors tree leafId hwf
  have hmarked : ∀ r ∈ flattenAllMarked tree leafId,
      (r.isOnActiveBranch = true ↔ r.id ∈ specAncestors tree leafId) := by
    intro r hr
    rw [flattenAllMarked_eq] at hr
    obtain ⟨r0, hr0, rfl⟩ := List.mem_map.1 hr
    simp only
    rw [contains_iff_mem]
    exact hact r0.id
  constructor
  · intro r hr
    exact hmarked r (mem_flattenSessionTree tree leafId r hr).1
  · intro x
    constructor
    · rintro ⟨r, hr, hflag, rfl⟩
      exact (hmarked r hr).1 hflag
    · intro hx
      have hxid : x ∈ (preOrderF tree).map (fun n => n.entry.id) := by
        obtain ⟨hwf1, hnd, hne⟩ := hwf
        cases leafId with
        | none => simp [specAncestors] at hx
        | some l =>
          cases hpath : forestPath l tree with
          | none => simp [specAncestors, hpath] at hx
          | some p =>
            obtain ⟨_, hpsub⟩ := forestPath_nodup_subset tree l p hnd hpath
            apply hpsub
            simpa [specAncestors, hpath] using hx
      obtain ⟨n, hn, hid⟩ := List.mem_map.1 hxid
      refine ⟨{ mkRow leafId n.entry with isOnActiveBranch := (activeIds (dfsRoots leafId tree) leafId).contains (mkRow leafId n.entry).id }, ?_, ?_, ?_⟩
      · rw [flattenAllMarked_eq]
        exact List.mem_map_of_mem _ ((mem_dfsRoots_iff _ _ _).mpr ⟨n, hn, rfl⟩)
      · simp only [mkRow_id]
        rw [contains_iff_mem, hid]
        exact (hact x).2 hx
      · simpa [mkRow_id] using hid

/-- Witness for `C5_active_flags` on the concrete two-node forest. -/
theorem C5_active_flags_witness :
    (∀ r ∈ flattenSessionTree cexForest (some "b"),
       (r.isOnActiveBranch = true ↔ r.id ∈ specAncestors cexForest (some "b"))) ∧
    (∀ x : String,
       (∃ r ∈ flattenAllMarked cexForest (some "b"), r.isOnActiveBranch = true ∧ r.id = x)
         ↔ x ∈ specAncestors cexForest (some "b")) :=
  C5_active_flags cexForest (some "b") (by decide)

/-! ## C6 — which entries get rows -/

theorem find?_by_key_eq {α : Type} (key : α → String) (l : List α)
    (hnd : (l.map key).Nodup) (a : α) (ha : a ∈ l) :
    l.find? (fun y => key y == key a) = some a := by
  induction l with
  | nil => simp at ha
  | cons b bs ih =>
    simp only [List.map_cons, List.nodup_cons] at hnd
    by_cases hb : (key b == key a) = true
    · have hbid : key b = key a := by simpa using hb
      have hrb : a = b := by
        rcases List.mem_cons.1 ha with h | h
        · exact h
        · exfalso
          exact hnd.1 (hbid ▸ List.mem_map_of_mem key h)
      subst hrb
      exact List.find?_cons_of_pos bs (by simp)
    · have habs : a ∈ bs := by
        rcases List.mem_cons.1 ha with h | h
        · exfalso
          apply hb
          rw [h]
          simp
        · exact h
      rw [List.find?_cons_of_neg _ (by simpa using hb)]
      exact ih hnd.2 habs

/-- The one-node forest of the C6 counterexample. -/
def cex6Forest : Forest := .cons (.mk cexAsstEntry none .nil) .nil

/-- C6 counterexample: when the assistant message entry whose content is
entirely tool calls *is* the leaf, its row is kept — the output contains a
row for it, contradicting the claim's unconditional "no row for any
assistant message entry whose content is entirely tool calls with no
text". -/
theorem C6_counterexample :
    ((flattenSessionTree cex6Forest (some "a")).map (fun r => r.id)) = ["a"] ∧
    (∀ r ∈ flattenSessionTree cex6Forest (some "a"), r.role = some "assistant") ∧
    entryContent cexAsstEntry = JsVal.arr [Block.toolCall (some "t1") none (some "bash") none none none] ∧
    hasTextContent (entryContent cexAsstEntry) = false := by
  refine ⟨rfl, by decide, rfl, rfl⟩

/-- C6 (amended): the output of `flattenSessionTree` contains no row for an
entry of type `model_change`, `thinking_level_change`, `label`, `custom` or
`session_info`; and, under the data-model invariant, every assistant-message
row in the output *other than the leaf row* stems from an entry whose
content has text (so an assistant message whose content is entirely tool
calls gets no row — unless its id equals `leafId`, which the filter
exempts). -/
theorem C6_filtered_rows (tree : Forest) (leafId : Option String)
    (hwf : WFForest tree) :
    (∀ r ∈ flattenSessionTree tree leafId,
       EXCLUDED_ENTRY_TYPES.contains r.entryType = false) ∧
    (∀ r ∈ flattenSessionTree tree leafId, ∀ n ∈ preOrderF tree,
       n.entry.id = r.id → r.role = some "assistant" →
       (∀ l, leafId = some l → r.id ≠ l) →
       hasTextContent (entryContent n.entry) = true) := by
  obtain ⟨hwf1, hnd, hne⟩ := hwf
  constructor
  · intro r hr
    have hkeep := (mem_flattenSessionTree tree leafId r hr).2
    by_cases hc : EXCLUDED_ENTRY_TYPES.contains r.entryType = true
    · unfold keepRow at hkeep
      rw [if_pos hc] at hkeep
      exact absurd hkeep (by simp)
    · simpa using hc
  · intro r hr n hn hid hrole hleaf
    obtain ⟨hmem, hkeep⟩ := mem_flattenSessionTree tree leafId r hr
    have hexcl : EXCLUDED_ENTRY_TYPES.contains r.entryType = false := by
      by_cases hc : EXCLUDED_ENTRY_TYPES.contains r.entryType = true
      · unfold keepRow at hkeep
        rw [if_pos hc] at hkeep
        exact absurd hkeep (by simp)
      · simpa using hc
    have hfind : (preOrderF tree).find? (fun y => y.entry.id == r.id) = some n := by
      have := find?_by_key_eq (fun y => y.entry.id) (preOrderF tree) hnd n hn
      simpa [hid] using this
    unfold keepRow at hkeep
    rw [if_neg (by rw [hexcl]; simp)] at hkeep
    by_cases ht : hasTextContent (entryContent n.entry) = true
    · exact ht
    · rw [Bool.not_eq_true] at ht
      exfalso
      cases hl : leafId with
      | none =>
        rw [hl] at hkeep
        rw [if_pos (by simp [hrole])] at hkeep
        simp [hfind, ht] at hkeep
      | some l =>
        have hner : r.id ≠ l := hleaf l hl
        rw [hl] at hkeep
        rw [if_pos (by simp [hrole, bne_iff_ne, hner])] at hkeep
        simp [hfind, ht] at hkeep

/-- Witness for `C6_filtered_rows` on the concrete two-node forest. -/
theorem C6_filtered_rows_witness :
    (∀ r ∈ flattenSessionTree cexForest (some "b"),
       EXCLUDED_ENTRY_TYPES.contains r.entryType = false) ∧
    (∀ r ∈ flattenSessionTree cexForest (some "b"), ∀ n ∈ preOrderF cexForest,
       n.entry.id = r.id → r.role = some "assistant" →
       (∀ l, (some "b" : Option String) = some l → r.id ≠ l) →
       hasTextContent (entryContent n.entry) = true) :=
  C6_filtered_rows cexForest (some "b") (by decide)

end PiExt
